import Mathlib

/-!
Verification development for the kuma-mieru preload-data pipeline.

Definitions are shallow embeddings of `src/config/api.ts` and
`src/services/config.server.ts`.  Components of the repository that are
referenced from there but are not present under `src/` (the JSON sanitizer,
the `Maintenance` data type, the UTC-normalization helper) are modelled from
the specification and marked as such in their doc comments.
-/

/-- Site metadata carried by each configured page (`SiteMeta` in `src/config`,
see `src/unnamed/part_001`). -/
structure SiteMeta where
  title : String
  description : String
  icon : String
deriving Repr, DecidableEq

/-- Configuration of one status page (`PageConfig` in `src/unnamed/part_001`). -/
structure PageConfig where
  id : String
  name : Option String
  siteMeta : SiteMeta
deriving Repr, DecidableEq

/-- Fields of `env.config` consumed by `getConfig` in `src/config/api.ts`
(produced by the schema-validated generated configuration, `src/config/env.ts`). -/
structure EnvConfig where
  baseUrl : String
  defaultPageId : String
  pages : List PageConfig
  isEditThisPage : Bool
  isShowStarButton : Bool
deriving Repr, DecidableEq

/-- Outward `Config` contract built by `getConfig` (`src/config/api.ts`). -/
structure Config where
  baseUrl : String
  defaultPageId : String
  pages : List PageConfig
  currentPageId : String
  htmlEndpoint : String
  apiEndpoint : String
  siteMeta : SiteMeta
  isPlaceholder : Bool
  isEditThisPage : Bool
  isShowStarButton : Bool
deriving Repr, DecidableEq

/-- Embedding of `getConfig` (`src/config/api.ts` lines 5-34).  The JS guard
`!baseUrl || !defaultPageId || !pages || pages.length === 0` throws, modelled
as `Except.error`; `pages.find((page) => page.id === defaultPageId) || pages[0]`
selects the default page.  The boolean flags are combined exactly as in the
source (`isEditThisPage || false`, `isShowStarButton || true`). -/
def getConfig (e : EnvConfig) : Except String Config :=
  if e.baseUrl = "" ∨ e.defaultPageId = "" ∨ e.pages = [] then
    .error "Missing required configuration variables"
  else
    match e.pages with
    | [] => .error "Missing required configuration variables"
    | p0 :: _ =>
      let defaultPage := (e.pages.find? (fun p => p.id == e.defaultPageId)).getD p0
      .ok { baseUrl := e.baseUrl
            defaultPageId := e.defaultPageId
            pages := e.pages
            currentPageId := e.defaultPageId
            htmlEndpoint := e.baseUrl ++ "/status/" ++ e.defaultPageId
            apiEndpoint := e.baseUrl ++ "/api/status-page/heartbeat/" ++ e.defaultPageId
            siteMeta := defaultPage.siteMeta
            isPlaceholder := false
            isEditThisPage := e.isEditThisPage || false
            isShowStarButton := e.isShowStarButton || true }

/-- Embedding of `getConfigForPage` (`src/config/api.ts` lines 45-58): the JS
code makes a shallow copy `{...apiConfig}` and, when `pageId` matches a
configured page, reassigns `currentPageId`, the two endpoints and `siteMeta`
on that copy; with no match the copy is returned unchanged. -/
def getConfigForPage (apiCfg : Config) (pageId : String) : Config :=
  match apiCfg.pages.find? (fun p => p.id == pageId) with
  | some page =>
    { apiCfg with
      currentPageId := pageId
      htmlEndpoint := apiCfg.baseUrl ++ "/status/" ++ pageId
      apiEndpoint := apiCfg.baseUrl ++ "/api/status-page/heartbeat/" ++ pageId
      siteMeta := page.siteMeta }
  | none => apiCfg

/-- State-passing form of `getConfigForPage`: the first component is the
returned value, the second is the process-wide `apiConfig` state after the
call.  Every assignment in the source targets the spread copy, so the state
component passes through untouched. -/
def getConfigForPageSt (apiCfg : Config) (pageId : String) : Config × Config :=
  (getConfigForPage apiCfg pageId, apiCfg)

/-- Modelled from the spec: lifecycle states assigned by the maintenance
status calculator; the `status` string field of `Maintenance` ranges over
`scheduled`, `under-maintenance`, `ended` (the type itself lives in
`@/types/config`, which is not under `src/`). -/
inductive MStatus where
  | scheduled
  | underMaintenance
  | ended
deriving Repr, DecidableEq

/-- Modelled from the spec: a timeslot of a maintenance window, a
`startDate`/`endDate` pair of timestamp strings (`@/types/config` is not
under `src/`). -/
structure Timeslot where
  startDate : String
  endDate : String
deriving Repr, DecidableEq

/-- Modelled from the spec: a maintenance item with id, title, description,
an optional ordered `timeslotList` (`none` embeds a JS `undefined` field) and
an optional computed `status` (`@/types/config` is not under `src/`). -/
structure Maintenance where
  id : Nat
  title : String
  description : String
  timeslotList : Option (List Timeslot)
  status : Option MStatus
deriving Repr, DecidableEq

/-- Per-item body of `processMaintenanceData` (`src/services/config.server.ts`
lines 13-41), with the ambient effects passed explicitly: `utc` stands for
`ensureUTCTimezone` (imported from `./utils/common`, not under `src/`),
`toTime` for `(s) => new Date(s).getTime()`, and `now` for `Date.now()`.
The spread copy, the guarded normalization of `timeslotList`, and the
three-branch status assignment from the first (normalized) timeslot are
translated clause by clause. -/
def processOneMaintenance (utc : String → String) (toTime : String → Int)
    (now : Int) (m : Maintenance) : Maintenance :=
  let processed := m
  let processed :=
    match m.timeslotList with
    | some (s :: rest) =>
      { processed with
        timeslotList := some ((s :: rest).map (fun (slot : Timeslot) =>
          { startDate := utc slot.startDate, endDate := utc slot.endDate })) }
    | _ => processed
  match processed.timeslotList with
  | some (slot0 :: _) =>
    let startTime := toTime slot0.startDate
    let endTime := toTime slot0.endDate
    if now ≥ startTime ∧ now < endTime then
      { processed with status := some .underMaintenance }
    else if now < startTime then
      { processed with status := some .scheduled }
    else if now ≥ endTime then
      { processed with status := some .ended }
    else
      processed
  | _ => processed

/-- Embedding of `processMaintenanceData` (`src/services/config.server.ts`
lines 12-43): maps `processOneMaintenance` over the list. -/
def processMaintenanceData (utc : String → String) (toTime : String → Int)
    (now : Int) (maintenanceList : List Maintenance) : List Maintenance :=
  maintenanceList.map (processOneMaintenance utc toTime now)

/-- JSON-like dynamic value, used for the untyped parts of the preload payload
(the upstream config object's field values and non-array `maintenanceList`
payloads). -/
inductive JValue where
  | null
  | bool (b : Bool)
  | num (n : Int)
  | str (s : String)
  | arr (elems : List JValue)
  | obj (fields : List (String × JValue))

/-- Incident record as used by `getGlobalConfig`: only the two date fields are
touched by the code; the remaining upstream fields are untouched pass-through
and are not modelled. -/
structure Incident where
  createdDate : String
  lastUpdatedDate : String
deriving Repr, DecidableEq

/-- Shape of the `maintenanceList` field of the extracted preload payload as
observed by `Array.isArray`: absent, present but not an array, or an array of
maintenance items. -/
inductive MaintField where
  | missing
  | nonSeq (v : JValue)
  | seq (xs : List Maintenance)

/-- Preload payload as consumed by `getGlobalConfig` / `getMaintenanceData`:
`config` is either absent/falsy (`none`) or an object given as an ordered
field list; `incident` is optional; `maintenanceList` is dynamic. -/
structure PreloadData where
  config : Option (List (String × JValue))
  incident : Option Incident
  maintenanceList : MaintField

/-- Failure cases of `getPreloadData` (`src/services/config.server.ts` lines
150-227); every one is thrown as a `ConfigError`, distinguished here by the
message it carries. -/
inductive PreloadFailure where
  | fetchFailed (status : Nat)
  | payloadNotFound
  | jsonSyntax
  | parseOther
  | network
deriving Repr, DecidableEq

/-- Message text attached to each `ConfigError` thrown by `getPreloadData`
(statuses and payload snippets elided). -/
def preloadFailureMessage : PreloadFailure → String
  | .fetchFailed _ => "Failed to get HTML"
  | .payloadNotFound => "Preload script tag not found or empty"
  | .jsonSyntax => "JSON parsing failed"
  | .parseOther => "Failed to parse preload data"
  | .network => "Failed to get preload data, please check network connection and server status"

/-- Result value of `getMaintenanceData`. -/
structure MaintenanceResult where
  success : Bool
  maintenanceList : List Maintenance
  error : Option String

/-- Embedding of `getMaintenanceData` (`src/services/config.server.ts` lines
49-75).  The argument `pd` is the outcome of the inner `getPreloadData` call:
a thrown error propagates into the local `catch`, which degrades to
`success: false` with an empty list; a non-array `maintenanceList` raises
`ApiDataError`, caught by the same local `catch`. -/
def getMaintenanceData (utc : String → String) (toTime : String → Int)
    (now : Int) (pd : Except PreloadFailure PreloadData) : MaintenanceResult :=
  match pd with
  | .error e =>
    { success := false, maintenanceList := [], error := some (preloadFailureMessage e) }
  | .ok p =>
    match p.maintenanceList with
    | .seq xs =>
      { success := true
        maintenanceList := processMaintenanceData utc toTime now xs
        error := none }
    | _ =>
      { success := false, maintenanceList := []
        error := some "Maintenance list data must be an array" }

/-- Outward global-config contract assembled by `getGlobalConfig`: the merged
config object (ordered field list), the optional normalized incident, and the
processed maintenance list. -/
structure GlobalConfig where
  config : List (String × JValue)
  incident : Option Incident
  maintenanceList : List Maintenance

/-- Field-presence test, embedding the JS `field in preloadData.config`. -/
def hasField (o : List (String × JValue)) (k : String) : Bool :=
  o.any (fun p => p.1 == k)

/-- Field lookup, embedding JS property access on the config object. -/
def lookupField (o : List (String × JValue)) (k : String) : Option JValue :=
  (o.find? (fun p => p.1 == k)).map (fun p => p.2)

/-- Embedding of the object spread `{...preloadData.config, theme}`: every
`theme` entry is overridden in place (the required-field check has already
ensured the key is present, so the JS spread-override keeps its position). -/
def overrideTheme (o : List (String × JValue)) (t : String) : List (String × JValue) :=
  o.map (fun p => if p.1 == "theme" then (p.1, JValue.str t) else p)

/-- Required config fields checked by `getGlobalConfig`. -/
def requiredFields : List String :=
  ["slug", "title", "description", "icon", "theme"]

/-- Placeholder config returned by the top-level `catch` of `getGlobalConfig`
(`src/services/config.server.ts` lines 130-146), copied field by field. -/
def placeholderGlobalConfig : GlobalConfig :=
  { config :=
      [("slug", JValue.str ""), ("title", JValue.str ""),
       ("description", JValue.str ""), ("icon", JValue.str "/icon.svg"),
       ("theme", JValue.str "system"), ("published", JValue.bool true),
       ("showTags", JValue.bool true), ("customCSS", JValue.str ""),
       ("footerText", JValue.str ""), ("showPoweredBy", JValue.bool false),
       ("googleAnalyticsId", JValue.null),
       ("showCertificateExpiry", JValue.bool false)]
    incident := none
    maintenanceList := [] }

/-- Embedding of `getGlobalConfig` (`src/services/config.server.ts` lines
77-148).  `pd` is the outcome of `getPreloadData` (the same outcome also feeds
the inner `getMaintenanceData` call, which re-invokes `getPreloadData` on the
same endpoint); any `ConfigError` thrown in the `try` block lands in the
top-level `catch` and produces the placeholder.  The source expression
`maintenanceData.maintenanceList || []` is the identity on arrays (JS arrays
are truthy) and is embedded as plain field access. -/
def getGlobalConfig (utc : String → String) (toTime : String → Int)
    (now : Int) (pd : Except PreloadFailure PreloadData) : GlobalConfig :=
  match pd with
  | .error _ => placeholderGlobalConfig
  | .ok p =>
    match p.config with
    | none => placeholderGlobalConfig
    | some cfg =>
      if requiredFields.all (fun f => hasField cfg f) then
        match lookupField cfg "theme" with
        | some (JValue.str rawTheme) =>
          let theme :=
            if rawTheme == "dark" then "dark"
            else if rawTheme == "light" then "light"
            else "system"
          let maintenanceData := getMaintenanceData utc toTime now pd
          { config := overrideTheme cfg theme
            incident := p.incident.map (fun i =>
              { createdDate := utc i.createdDate
                lastUpdatedDate := utc i.lastUpdatedDate })
            maintenanceList := maintenanceData.maintenanceList }
        | _ => placeholderGlobalConfig
      else placeholderGlobalConfig

/-- Named characters, to keep the character-level scanning below readable
(and to avoid brace and quote literals). -/
def lbraceC : Char := Char.ofNat 123

/-- Closing-brace character. -/
def rbraceC : Char := Char.ofNat 125

/-- JS whitespace as matched by `\s` and removed by `String.prototype.trim`,
restricted to the ASCII range (space, tab, line feed, carriage return,
vertical tab, form feed); the payloads scanned here are ASCII. -/
def isJsWs (c : Char) : Bool :=
  c = ' ' || c = '\t' || c = '\n' || c = '\r' || c = Char.ofNat 11 || c = Char.ofNat 12

/-- Line terminators that the JS regex metacharacter `.` does not match. -/
def isLineTerm (c : Char) : Bool :=
  c = '\n' || c = '\r' || c = Char.ofNat 8232 || c = Char.ofNat 8233

/-- Blankness test embedding the JS guard
`!preloadScript || preloadScript.trim() === ''`. -/
def isBlank (l : List Char) : Bool := l.all isJsWs

/-- Literal-prefix matcher: returns the remainder after the literal
when it is a prefix of the input. -/
def stripLit : List Char → List Char → Option (List Char)
  | [], s => some s
  | _ :: _, [] => none
  | p :: ps, c :: cs => if p = c then stripLit ps cs else none

/-- Substring test embedding the cheerio selector
`script:contains("window.preloadData")`. -/
def containsSub (pat : List Char) : List Char → Bool
  | [] => pat.isPrefixOf []
  | c :: cs => pat.isPrefixOf (c :: cs) || containsSub pat cs

/-- Position test for the two-character sequence closing brace + semicolon at
index `k` of `l`. -/
def braceSemiAt (l : List Char) (k : Nat) : Bool :=
  (l.getD k ' ' == rbraceC) && (l.getD (k + 1) ' ' == ';')

/-- Countdown scan producing the largest `k < n` with `braceSemiAt l k`. -/
def lbsDown (l : List Char) : Nat → Option Nat
  | 0 => none
  | n + 1 => if braceSemiAt l n then some n else lbsDown l n

/-- Largest index of `l` where a closing brace is followed by a semicolon;
this is where the greedy regex suffix `};` ends up matching. -/
def lastBraceSemi (l : List Char) : Option Nat := lbsDown l l.length

/-- Marker literal `window.preloadData`. -/
def preloadMarker : List Char := ("window.preloadData").toList

/-- Anchored match of the regex `window\.preloadData\s*=\s*({.*});` at the
start of `s` (`src/services/config.server.ts` line 173), returning capture
group 1.  The two `\s*` are forced to maximal munch (`=` and the opening
brace are not whitespace); `.` matches everything on the line except line
terminators, and greedy backtracking makes `};` match at the last such pair
on the line. -/
def matchFrom (s : List Char) : Option (List Char) :=
  match stripLit preloadMarker s with
  | none => none
  | some r1 =>
    match r1.dropWhile isJsWs with
    | '=' :: r3 =>
      match r3.dropWhile isJsWs with
      | c :: r5 =>
        if c = lbraceC then
          let line := r5.takeWhile (fun d => !isLineTerm d)
          match lastBraceSemi line with
          | some k => some (lbraceC :: (line.take k ++ [rbraceC]))
          | none => none
        else none
      | [] => none
    | _ => none

/-- Regex search: the JS engine tries an anchored match at every position,
left to right, and the first position that succeeds wins. -/
def searchPreload : List Char → Option (List Char)
  | [] => none
  | c :: cs =>
    match matchFrom (c :: cs) with
    | some m => some m
    | none => searchPreload cs

/-- Modelled from the spec: balanced-brace scanner; consumes input at depth
`d` (the first opening brace has been consumed into `acc`), and captures up
to the balanced closing brace that is terminated by a semicolon. -/
def balancedScan : List Char → Nat → List Char → Option (List Char)
  | [], _, _ => none
  | c :: cs, d, acc =>
    if c = lbraceC then balancedScan cs (d + 1) (c :: acc)
    else if c = rbraceC then
      match d with
      | 0 => none
      | 1 => match cs with
             | ';' :: _ => some (c :: acc).reverse
             | _ => none
      | e + 2 => balancedScan cs (e + 1) (c :: acc)
    else balancedScan cs d (c :: acc)

/-- Modelled from the spec: the Script Locator rule claimed in §4.2, which
"captures from the first `{` to the balanced closing `}` terminated by `;`"
after the assignment to the global marker.  Used only to compare the claimed
rule with the extractor actually present in the source. -/
def specBalancedCapture : List Char → Option (List Char)
  | [] => none
  | c :: cs =>
    match
      (match stripLit preloadMarker (c :: cs) with
       | none => none
       | some r1 =>
         match r1.dropWhile isJsWs with
         | '=' :: r3 =>
           match r3.dropWhile isJsWs with
           | b :: r5 => if b = lbraceC then balancedScan r5 1 [lbraceC] else none
           | [] => none
         | _ => none)
    with
    | some m => some m
    | none => specBalancedCapture cs

/-- Cheerio-parsed HTML document as observed by `getPreloadData`: the text
content of the `#preload-data` element (empty when the element is absent) and
the text of each script element in document order. -/
structure HtmlDoc where
  preloadText : List Char
  scripts : List (List Char)

/-- Embedding of the script-locator portion of `getPreloadData`
(`src/services/config.server.ts` lines 166-187): use the `#preload-data`
text when non-blank; otherwise concatenate the text of every script
containing `window.preloadData` (the cheerio `.text()` of a multi-element
selection) and run the regex; `none` embeds the thrown
`Preload script tag not found or empty` error. -/
def locatePreload (doc : HtmlDoc) : Option (List Char) :=
  let p := doc.preloadText
  if isBlank p then
    let sw := (doc.scripts.filter (fun s => containsSub preloadMarker s)).flatten
    if sw.isEmpty then none
    else
      match searchPreload sw with
      | some m => if isBlank m then none else some m
      | none => none
  else some p

/-- Outcome of the `customFetch` call in `getPreloadData`: either an HTTP
response with its status code and (already cheerio-parsed) HTML body, or a
network-level failure (timeout, DNS, connection reset). -/
inductive FetchResult where
  | response (status : Nat) (doc : HtmlDoc)
  | networkError

/-- Embedding of `getPreloadData` (`src/services/config.server.ts` lines
150-227).  `parse` abstracts the composition
`extractPreloadData ∘ sanitizeJsonString` (both imported from `@/utils`,
not under `src/`) together with the inner catch's error wrapping; `response.ok`
is `200 ≤ status < 300` per the fetch specification.  Thrown `ConfigError`s
are rethrown by the outer catch unchanged, and non-`ConfigError` failures are
wrapped into the generic network `ConfigError`. -/
def getPreloadData (parse : List Char → Except PreloadFailure PreloadData) :
    FetchResult → Except PreloadFailure PreloadData
  | .networkError => .error .network
  | .response status doc =>
    if !(200 ≤ status && status < 300) then .error (.fetchFailed status)
    else
      match locatePreload doc with
      | none => .error .payloadNotFound
      | some script => parse script

/-- Double-quote character. -/
def dquoteC : Char := Char.ofNat 34

/-- Single-quote character. -/
def squoteC : Char := Char.ofNat 39

/-- Backslash character. -/
def bslashC : Char := Char.ofNat 92

/-- Modelled from the spec: token alphabet of the Sanitizer's string-aware
scanner (`src/utils/json-sanitizer` is not under `src/`; §4.3 and §9 of the
spec prescribe a single-pass lexer that classifies characters into
inside-string, inside-comment and structural states).  A `wordTok` covers
bare identifiers and numeric literals alike; `strTok` carries decoded string
content; comments carry no content because they are stripped. -/
inductive Tok where
  | lbrace
  | rbrace
  | lbrack
  | rbrack
  | colon
  | comma
  | strTok (s : List Char)
  | wordTok (w : List Char)
  | commentTok
  | otherTok (c : Char)
deriving Repr, DecidableEq

/-- Word characters: ASCII letters and digits plus the identifier and numeric
literal characters.  Maximal runs of these form one `wordTok`. -/
def isWordChar (c : Char) : Bool :=
  c.isAlpha || c.isDigit || c = '_' || c = '$' || c = '.' || c = '-' || c = '+'

/-- Structural punctuation recognized by the scanner. -/
def punctTok? (c : Char) : Option Tok :=
  if c = lbraceC then some .lbrace
  else if c = rbraceC then some .rbrace
  else if c = '[' then some .lbrack
  else if c = ']' then some .rbrack
  else if c = ':' then some .colon
  else if c = ',' then some .comma
  else none

/-- Decoding of a backslash escape inside a string literal: `\n`, `\t`, `\r`
map to their control characters, anything else (quotes, backslash, slash)
maps to the escaped character itself. -/
def decEsc (c : Char) : Char :=
  if c = 'n' then '\n' else if c = 't' then '\t' else if c = 'r' then '\r' else c

/-- String-body scanner: reads up to the closing quote `q`, decoding escapes;
an unterminated string consumes the rest of the input.  Returns the decoded
content and the remaining input. -/
def lexStrBody (q : Char) : List Char → List Char × List Char
  | [] => ([], [])
  | c :: cs =>
    if c = bslashC then
      match cs with
      | [] => ([bslashC], [])
      | e :: cs' =>
        let r := lexStrBody q cs'
        (decEsc e :: r.1, r.2)
    else if c = q then ([], cs)
    else
      let r := lexStrBody q cs
      (c :: r.1, r.2)

/-- Remaining-input length bound for `lexStrBody`. -/
theorem lexStrBody_length (q : Char) : ∀ cs : List Char, (lexStrBody q cs).2.length ≤ cs.length
  | [] => by simp [lexStrBody]
  | c :: cs => by
    by_cases hb : c = bslashC
    · cases cs with
      | nil => simp [lexStrBody.eq_def, hb]
      | cons e cs2 =>
        have ih := lexStrBody_length q cs2
        rw [lexStrBody.eq_def]
        simp only [if_pos hb, List.length_cons]
        omega
    · by_cases hq : c = q
      · subst hq
        simp [lexStrBody.eq_def, hb]
      · have ih := lexStrBody_length q cs
        rw [lexStrBody.eq_def]
        simp only [if_neg hb, if_neg hq, List.length_cons]
        omega

/-- Consumes a line comment body: stops before the first line terminator
(which then lexes as whitespace), or at the end of input. -/
def dropLineComment : List Char → List Char
  | [] => []
  | c :: cs => if isLineTerm c then c :: cs else dropLineComment cs

/-- Length bound for `dropLineComment`. -/
theorem dropLineComment_length : ∀ cs : List Char, (dropLineComment cs).length ≤ cs.length
  | [] => by simp [dropLineComment]
  | c :: cs => by
    by_cases h : isLineTerm c
    · simp [dropLineComment, h]
    · have ih := dropLineComment_length cs
      simp only [dropLineComment, h, Bool.false_eq_true, if_false, List.length_cons, ite_false] at ih ⊢
      omega

/-- Consumes a block comment body up to and including the closing
star-slash, or the rest of the input when unterminated. -/
def dropBlockComment : List Char → List Char
  | [] => []
  | [_] => []
  | c :: d :: cs => if c = '*' ∧ d = '/' then cs else dropBlockComment (d :: cs)

/-- Length bound for `dropBlockComment`. -/
theorem dropBlockComment_length : ∀ cs : List Char, (dropBlockComment cs).length ≤ cs.length
  | [] => by simp [dropBlockComment]
  | [_] => by simp [dropBlockComment]
  | c :: d :: cs => by
    by_cases h : c = '*' ∧ d = '/'
    · simp only [dropBlockComment, if_pos h, List.length_cons]
      omega
    · have ih := dropBlockComment_length (d :: cs)
      simp only [dropBlockComment, h, if_false, List.length_cons, ite_false] at ih ⊢
      omega

/-- Length bound for `List.dropWhile`. -/
theorem dropWhile_length (p : Char → Bool) (l : List Char) :
    (l.dropWhile p).length ≤ l.length := by
  induction l with
  | nil => simp
  | cons a l ih =>
    rw [List.dropWhile_cons]
    split
    · simp
      omega
    · simp

/-- Modelled from the spec: the Sanitizer's single-pass string-aware scanner
(§4.3/§9; `src/utils/json-sanitizer` is not under `src/`).  Whitespace
separates tokens and is dropped (JSON is whitespace-insensitive; the emitter
below re-inserts a space wherever two tokens would otherwise merge); both
quote styles produce one `strTok` with decoded content; `//` and `/*`
open comments; structural punctuation, maximal word runs, and any other
single character form the remaining tokens.  The token-level repairs below
process the token list right to left (innermost first), which makes each of
them stable in a single pass. -/
def lex (s : List Char) : List Tok :=
  match s with
  | [] => []
  | c :: cs =>
    if isJsWs c then lex cs
    else if c = dquoteC ∨ c = squoteC then
      let r := lexStrBody c cs
      .strTok r.1 :: lex r.2
    else if c = '/' then
      match cs with
      | '/' :: cs2 => .commentTok :: lex (dropLineComment cs2)
      | '*' :: cs2 => .commentTok :: lex (dropBlockComment cs2)
      | cs3 => .otherTok '/' :: lex cs3
    else
      match punctTok? c with
      | some t => t :: lex cs
      | none =>
        if isWordChar c then
          .wordTok ((c :: cs).takeWhile isWordChar) :: lex ((c :: cs).dropWhile isWordChar)
        else .otherTok c :: lex cs
termination_by s.length
decreasing_by
  all_goals simp only [List.length_cons]
  all_goals first
  | omega
  | (have h1 := lexStrBody_length c cs
     omega)
  | (have h1 := dropLineComment_length cs2
     omega)
  | (have h1 := dropBlockComment_length cs2
     omega)
  | (rw [List.dropWhile_cons]
     split
    
     · have h1 := dropWhile_length isWordChar cs
       omega
    
     · simp_all)

/-- Modelled from the spec: comment stripping (§4.3), performed outside
string literals by construction (comments were recognized by the lexer). -/
def stripComments (ts : List Tok) : List Tok :=
  ts.filter (fun t =>
    match t with
    | .commentTok => false
    | _ => true)

/-- Literal `new` as a character list. -/
def newWord : List Char := ("new").toList

/-- Literal `Date` as a character list. -/
def dateWord : List Char := ("Date").toList

/-- Head test for the date-constructor pattern
`new Date ( <string> )` at the front of a token list. -/
def isDatePatB : List Tok → Bool
  | .wordTok n :: .wordTok d :: .otherTok c :: .strTok _ :: .otherTok c2 :: _ =>
    n == newWord && d == dateWord && c == '(' && c2 == ')'
  | _ => false

/-- Third token's string content (the date argument of a matched pattern). -/
def thirdStr : List Tok → List Char
  | _ :: _ :: .strTok s :: _ => s
  | _ => []

/-- One right-to-left step of the date repair: when the head forms a date
pattern, the five pattern tokens collapse to the quoted date string. -/
def dateStep (t : Tok) (r : List Tok) : List Tok :=
  if isDatePatB (t :: r) then .strTok (thirdStr r) :: r.drop 4 else t :: r

/-- Modelled from the spec: date-constructor repair (§4.3/§9 leave the exact
detected form open; the mapping chosen and documented here rewrites the token
sequence `new Date ( <string> )` to the quoted string itself), applied right
to left so that nested constructor calls collapse innermost first. -/
def rewriteDates : List Tok → List Tok
  | [] => []
  | t :: ts => dateStep t (rewriteDates ts)

/-- Head test for an unquoted key: a word token directly before a colon. -/
def isKeyPatB : List Tok → Bool
  | .wordTok _ :: .colon :: _ => true
  | _ => false

/-- Word content of a token (empty for non-words). -/
def wordOf : Tok → List Char
  | .wordTok w => w
  | _ => []

/-- One right-to-left step of key quoting. -/
def keyStep (t : Tok) (r : List Tok) : List Tok :=
  if isKeyPatB (t :: r) then .strTok (wordOf t) :: r else t :: r

/-- Modelled from the spec: key quoting (§4.3) — an unquoted (word) object
key directly before a colon becomes a double-quoted key; single-quoted keys
were already unified into `strTok` by the lexer. -/
def quoteKeys : List Tok → List Tok
  | [] => []
  | t :: ts => keyStep t (quoteKeys ts)

/-- Literal `undefined` as a character list. -/
def undefinedWord : List Char := ("undefined").toList

/-- Literal `NaN` as a character list. -/
def nanWord : List Char := ("NaN").toList

/-- Literal `null` as a character list. -/
def nullWord : List Char := ("null").toList

/-- Modelled from the spec: JavaScript literal tokens with no JSON equivalent
(`undefined`, bare `NaN`) are normalized to `null` (§4.3). -/
def mapWord (t : Tok) : Tok :=
  match t with
  | .wordTok w => if w = undefinedWord ∨ w = nanWord then .wordTok nullWord else .wordTok w
  | _ => t

/-- Pointwise application of `mapWord`. -/
def mapWords (ts : List Tok) : List Tok := ts.map mapWord

/-- Closing-bracket test used by trailing-comma removal. -/
def isCloser (t : Tok) : Bool :=
  match t with
  | .rbrace => true
  | .rbrack => true
  | _ => false

/-- Head test for a trailing comma: a comma directly before a closer. -/
def isTrailPatB : List Tok → Bool
  | .comma :: u :: _ => isCloser u
  | _ => false

/-- One right-to-left step of trailing-comma removal. -/
def commaStep (t : Tok) (r : List Tok) : List Tok :=
  if isTrailPatB (t :: r) then r else t :: r

/-- Modelled from the spec: trailing-comma removal (§4.3) — a comma whose
next token (after removal of deeper trailing commas) closes an object or
array is dropped; processing right to left makes the removal cascade. -/
def rtc : List Tok → List Tok
  | [] => []
  | t :: ts => commaStep t (rtc ts)

/-- Modelled from the spec: the Sanitizer's token-level pipeline in order —
strip comments, repair date constructor calls, quote unquoted keys, normalize
`undefined`/`NaN`, remove trailing commas. -/
def sanitizeToks (ts : List Tok) : List Tok :=
  rtc (mapWords (quoteKeys (rewriteDates (stripComments ts))))

/-- Escape encoding of one character for double-quoted JSON output. -/
def encEscChar (c : Char) : List Char :=
  if c = dquoteC then [bslashC, dquoteC]
  else if c = bslashC then [bslashC, bslashC]
  else if c = '\n' then [bslashC, 'n']
  else if c = '\t' then [bslashC, 't']
  else if c = '\r' then [bslashC, 'r']
  else [c]

/-- Escape encoding of decoded string content. -/
def encStr (s : List Char) : List Char := (s.map encEscChar).flatten

/-- Emission of one token; strings are always emitted double-quoted with
escapes, comments were removed and emit nothing. -/
def emitTok : Tok → List Char
  | .lbrace => [lbraceC]
  | .rbrace => [rbraceC]
  | .lbrack => ['[']
  | .rbrack => [']']
  | .colon => [':']
  | .comma => [',']
  | .strTok s => dquoteC :: (encStr s ++ [dquoteC])
  | .wordTok w => w
  | .commentTok => []
  | .otherTok c => [c]

/-- Separator rule: a single space is inserted between two adjacent words
(they would merge into one word) and between two slash-ish characters (they
would open a comment). -/
def needSep : Tok → Tok → Bool
  | .wordTok _, .wordTok _ => true
  | .otherTok c, .otherTok d => c == '/' && (d == '/' || d == '*')
  | _, _ => false

/-- Emission of a token list with the separator rule. -/
def emitToks : List Tok → List Char
  | [] => []
  | [t] => emitTok t
  | t :: u :: ts => emitTok t ++ (if needSep t u then [' '] else []) ++ emitToks (u :: ts)

/-- Modelled from the spec: `sanitizeJsonString` (§4.3; the source file
`src/utils/json-sanitizer` is not under `src/`).  The located payload text is
lexed by the string-aware scanner, repaired at the token level by the
idempotent pipeline, and re-emitted. -/
def sanitizeJsonString (x : String) : String :=
  String.mk (emitToks (sanitizeToks (lex x.data)))

/-- Well-formedness of a token as produced by the scanner: word tokens are
nonempty runs of word characters; an `otherTok` carries a character that no
other branch of the scanner would have claimed. -/
def wfTok : Tok → Prop
  | .wordTok w => w ≠ [] ∧ ∀ c ∈ w, isWordChar c = true
  | .otherTok c =>
    isJsWs c = false ∧ c ≠ dquoteC ∧ c ≠ squoteC ∧ punctTok? c = none ∧ isWordChar c = false
  | _ => True

/-- Well-formedness of a token list. -/
def wfList (ts : List Tok) : Prop := ∀ t ∈ ts, wfTok t

/-- Absence of comment tokens. -/
def noComment (ts : List Tok) : Prop := ∀ t ∈ ts, t ≠ .commentTok

/-- Word characters are not whitespace. -/
theorem wordChar_not_ws {c : Char} (h : isWordChar c = true) : isJsWs c = false := by
  by_contra hw
  simp only [Bool.not_eq_false] at hw
  simp only [isJsWs, Bool.or_eq_true, decide_eq_true_eq] at hw
  rcases hw with ((((h1 | h1) | h1) | h1) | h1) | h1 <;> subst h1 <;> exact absurd h (by decide)

/-- Word characters are not quotes, slashes or stars. -/
theorem wordChar_not_special {c : Char} (h : isWordChar c = true) :
    c ≠ dquoteC ∧ c ≠ squoteC ∧ c ≠ '/' ∧ c ≠ '*' := by
  refine ⟨?_, ?_, ?_, ?_⟩ <;> intro h1 <;> subst h1 <;> exact absurd h (by decide)

/-- Word characters are not structural punctuation. -/
theorem wordChar_punct {c : Char} (h : isWordChar c = true) : punctTok? c = none := by
  unfold punctTok?
  split_ifs with h1 h2 h3 h4 h5 h6 <;>
    first
    | rfl
    | (first | subst h1 | subst h2 | subst h3 | subst h4 | subst h5 | subst h6
       exact absurd h (by decide))

/-- Characters claimed by `punctTok?` are in none of the earlier scanner
branches. -/
theorem punct_props {c : Char} {t : Tok} (h : punctTok? c = some t) :
    isJsWs c = false ∧ ¬(c = dquoteC ∨ c = squoteC) ∧ c ≠ '/' := by
  unfold punctTok? at h
  split_ifs at h with h1 h2 h3 h4 h5 h6
  · subst h1
    exact ⟨by decide, by decide, by decide⟩
  · subst h2
    exact ⟨by decide, by decide, by decide⟩
  · subst h3
    exact ⟨by decide, by decide, by decide⟩
  · subst h4
    exact ⟨by decide, by decide, by decide⟩
  · subst h5
    exact ⟨by decide, by decide, by decide⟩
  · subst h6
    exact ⟨by decide, by decide, by decide⟩

/-- Unfolding of `encStr` on a cons. -/
theorem encStr_cons (c : Char) (s : List Char) :
    encStr (c :: s) = encEscChar c ++ encStr s := by
  simp [encStr]

/-- Escape step of the string-body scanner. -/
theorem lexStrBody_esc_step (e : Char) (rest : List Char) :
    lexStrBody dquoteC (bslashC :: e :: rest) =
      (decEsc e :: (lexStrBody dquoteC rest).1, (lexStrBody dquoteC rest).2) := by
  rw [lexStrBody.eq_def]
  simp

/-- Plain-character step of the string-body scanner. -/
theorem lexStrBody_plain_step {c : Char} (hb : c ≠ bslashC) (hq : c ≠ dquoteC)
    (rest : List Char) :
    lexStrBody dquoteC (c :: rest) =
      (c :: (lexStrBody dquoteC rest).1, (lexStrBody dquoteC rest).2) := by
  rw [lexStrBody.eq_def]
  simp [hb, hq]

/-- Closing-quote step of the string-body scanner. -/
theorem lexStrBody_close (r : List Char) :
    lexStrBody dquoteC (dquoteC :: r) = ([], r) := by
  rw [lexStrBody.eq_def]
  simp [show ¬dquoteC = bslashC by decide]

/-- Round trip of escape-encoded string content through the string-body
scanner: decoding the encoding recovers the content exactly and stops at the
appended closing quote. -/
theorem lexStrBody_enc : ∀ s r : List Char,
    lexStrBody dquoteC (encStr s ++ (dquoteC :: r)) = (s, r)
  | [], r => by
    simp only [encStr, List.map_nil, List.flatten_nil, List.nil_append]
    exact lexStrBody_close r
  | c :: s, r => by
    have ih := lexStrBody_enc s r
    rw [encStr_cons, List.append_assoc]
    by_cases h1 : c = dquoteC
    · subst h1
      rw [show encEscChar dquoteC = [bslashC, dquoteC] by decide]
      rw [show ([bslashC, dquoteC] : List Char) ++ (encStr s ++ (dquoteC :: r)) =
          bslashC :: dquoteC :: (encStr s ++ (dquoteC :: r)) by simp]
      rw [lexStrBody_esc_step, ih]
      rw [show decEsc dquoteC = dquoteC by decide]
    · by_cases h2 : c = bslashC
      · subst h2
        rw [show encEscChar bslashC = [bslashC, bslashC] by decide]
        rw [show ([bslashC, bslashC] : List Char) ++ (encStr s ++ (dquoteC :: r)) =
            bslashC :: bslashC :: (encStr s ++ (dquoteC :: r)) by simp]
        rw [lexStrBody_esc_step, ih]
        rw [show decEsc bslashC = bslashC by decide]
      · by_cases h3 : c = '\n'
        · subst h3
          rw [show encEscChar '\n' = [bslashC, 'n'] by decide]
          rw [show ([bslashC, 'n'] : List Char) ++ (encStr s ++ (dquoteC :: r)) =
              bslashC :: 'n' :: (encStr s ++ (dquoteC :: r)) by simp]
          rw [lexStrBody_esc_step, ih]
          rw [show decEsc 'n' = '\n' by decide]
        · by_cases h4 : c = '\t'
          · subst h4
            rw [show encEscChar '\t' = [bslashC, 't'] by decide]
            rw [show ([bslashC, 't'] : List Char) ++ (encStr s ++ (dquoteC :: r)) =
                bslashC :: 't' :: (encStr s ++ (dquoteC :: r)) by simp]
            rw [lexStrBody_esc_step, ih]
            rw [show decEsc 't' = '\t' by decide]
          · by_cases h5 : c = '\r'
            · subst h5
              rw [show encEscChar '\r' = [bslashC, 'r'] by decide]
              rw [show ([bslashC, 'r'] : List Char) ++ (encStr s ++ (dquoteC :: r)) =
                  bslashC :: 'r' :: (encStr s ++ (dquoteC :: r)) by simp]
              rw [lexStrBody_esc_step, ih]
              rw [show decEsc 'r' = '\r' by decide]
            · rw [show encEscChar c = [c] by simp [encEscChar, h1, h2, h3, h4, h5]]
              rw [List.singleton_append]
              rw [lexStrBody_plain_step h2 h1, ih]

/-- Head condition under which a word run ends: the continuation starts with
a non-word character (or is empty). -/
def headNotWord : List Char → Prop
  | [] => True
  | d :: _ => isWordChar d = false

/-- Head condition under which a lone slash stays a lone slash: the
continuation does not begin with slash or star. -/
def headNotSlashy : List Char → Prop
  | [] => True
  | d :: _ => d ≠ '/' ∧ d ≠ '*'

/-- One-step unfolding of the scanner on a cons cell. -/
theorem lex_cons (c : Char) (cs : List Char) :
    lex (c :: cs) =
      if isJsWs c = true then lex cs
      else if c = dquoteC ∨ c = squoteC then
        Tok.strTok (lexStrBody c cs).1 :: lex (lexStrBody c cs).2
      else if c = '/' then
        match cs with
        | '/' :: cs2 => Tok.commentTok :: lex (dropLineComment cs2)
        | '*' :: cs2 => Tok.commentTok :: lex (dropBlockComment cs2)
        | cs3 => Tok.otherTok '/' :: lex cs3
      else
        match punctTok? c with
        | some t => t :: lex cs
        | none =>
          if isWordChar c = true then
            Tok.wordTok ((c :: cs).takeWhile isWordChar) ::
              lex ((c :: cs).dropWhile isWordChar)
          else Tok.otherTok c :: lex cs := by
  rw [lex.eq_def]

/-- Scanner on the empty input. -/
theorem lex_nil : lex [] = [] := by
  rw [lex.eq_def]

/-- Scanner step over whitespace. -/
theorem lex_ws_cons {c : Char} (h : isJsWs c = true) (r : List Char) :
    lex (c :: r) = lex r := by
  rw [lex_cons]
  simp [h]

/-- Scanner step over structural punctuation. -/
theorem lex_punct {c : Char} {t : Tok} (h : punctTok? c = some t) (r : List Char) :
    lex (c :: r) = t :: lex r := by
  obtain ⟨hw, hq, hs⟩ := punct_props h
  rw [lex_cons]
  simp [hw, hq, hs, h]

/-- Scanner step over an emitted double-quoted string. -/
theorem lex_str (s r : List Char) :
    lex (dquoteC :: (encStr s ++ [dquoteC]) ++ r) = .strTok s :: lex r := by
  have hsplit : dquoteC :: (encStr s ++ [dquoteC]) ++ r =
      dquoteC :: (encStr s ++ (dquoteC :: r)) := by simp
  rw [hsplit, lex_cons]
  simp [show isJsWs dquoteC = false by decide, lexStrBody_enc s r]

/-- Word-run split over an appended continuation. -/
theorem word_split : ∀ w : List Char, (∀ c ∈ w, isWordChar c = true) →
    ∀ r : List Char, headNotWord r →
    (w ++ r).takeWhile isWordChar = w ∧ (w ++ r).dropWhile isWordChar = r
  | [], _, r, hr => by
    cases r with
    | nil => simp
    | cons d r2 =>
      unfold headNotWord at hr
      constructor
      · simp only [List.nil_append]
        rw [List.takeWhile_cons]
        simp [hr]
      · simp only [List.nil_append]
        rw [List.dropWhile_cons]
        simp [hr]
  | c :: w, hall, r, hr => by
    have hc := hall c (by simp)
    have ih := word_split w (fun d hd => hall d (by simp [hd])) r hr
    simp only [List.cons_append]
    rw [List.takeWhile_cons, List.dropWhile_cons]
    simp [hc, ih.1, ih.2]

/-- Scanner step over a word run. -/
theorem lex_word {w : List Char} (hne : w ≠ []) (hall : ∀ c ∈ w, isWordChar c = true)
    {r : List Char} (hr : headNotWord r) : lex (w ++ r) = .wordTok w :: lex r := by
  obtain ⟨c, w2, rfl⟩ := List.exists_cons_of_ne_nil hne
  have hc : isWordChar c = true := hall c (by simp)
  have hws := wordChar_not_ws hc
  obtain ⟨hdq, hsq, hsl, _⟩ := wordChar_not_special hc
  have hp := wordChar_punct hc
  have hsplit := word_split (c :: w2) hall r hr
  rw [List.cons_append, lex_cons]
  simp only [hws, Bool.false_eq_true, if_false, hdq, hsq, or_self, hsl, hp, hc, if_true,
    ite_false, ite_true]
  rw [← List.cons_append]
  simp only [hsplit.1, hsplit.2]

/-- Scanner step over a lone non-special character. -/
theorem lex_other {c : Char} (hw : wfTok (.otherTok c)) {r : List Char}
    (hs : c = '/' → headNotSlashy r) : lex (c :: r) = .otherTok c :: lex r := by
  obtain ⟨hws, hdq, hsq, hp, hwrd⟩ := hw
  rw [lex_cons]
  by_cases hsl : c = '/'
  · subst hsl
    have hr := hs rfl
    simp only [show isJsWs '/' = false by decide, Bool.false_eq_true, if_false,
      show ¬('/' = dquoteC ∨ '/' = squoteC) by decide, if_true, ite_false]
    cases r with
    | nil => simp
    | cons d r2 =>
      unfold headNotSlashy at hr
      split
      · next heq => exact absurd (List.cons.injEq .. ▸ heq).1 hr.1
      · next heq => exact absurd (List.cons.injEq .. ▸ heq).1 hr.2
      · rfl
  · simp [hws, hdq, hsq, hsl, hp, hwrd]

/-- Emission of a well-formed non-comment token is nonempty. -/
theorem emitTok_ne_nil {t : Tok} (hwf : wfTok t) (hnc : t ≠ .commentTok) :
    emitTok t ≠ [] := by
  cases t <;> simp [emitTok]
  · exact hwf.1
  · exact hnc rfl

/-- Emission of a token list always starts with the emission of its head. -/
theorem emitToks_decomp (u : Tok) (ts : List Tok) :
    ∃ z : List Char, emitToks (u :: ts) = emitTok u ++ z := by
  cases ts with
  | nil => exact ⟨[], by simp [emitToks]⟩
  | cons v ts2 =>
    exact ⟨(if needSep u v then [' '] else []) ++ emitToks (v :: ts2), by simp [emitToks]⟩

/-- After a word token with no separator, the next emission cannot extend the
word run. -/
theorem sep_head_word {w : List Char} {u : Tok} (hwf : wfTok u) (hnc : u ≠ .commentTok)
    (hsep : needSep (.wordTok w) u = false) (z : List Char) :
    headNotWord (emitTok u ++ z) := by
  cases u with
  | lbrace => exact (by decide : isWordChar lbraceC = false)
  | rbrace => exact (by decide : isWordChar rbraceC = false)
  | lbrack => exact (by decide : isWordChar '[' = false)
  | rbrack => exact (by decide : isWordChar ']' = false)
  | colon => exact (by decide : isWordChar ':' = false)
  | comma => exact (by decide : isWordChar ',' = false)
  | strTok s => exact (by decide : isWordChar dquoteC = false)
  | wordTok v => exact absurd hsep (by simp [needSep])
  | commentTok => exact absurd rfl hnc
  | otherTok c => exact hwf.2.2.2.2

/-- After a lone slash with no separator, the next emission cannot open a
comment. -/
theorem sep_head_slash {u : Tok} (hwf : wfTok u) (hnc : u ≠ .commentTok)
    (hsep : needSep (.otherTok '/') u = false) (z : List Char) :
    headNotSlashy (emitTok u ++ z) := by
  cases u with
  | lbrace => exact ⟨by decide, by decide⟩
  | rbrace => exact ⟨by decide, by decide⟩
  | lbrack => exact ⟨by decide, by decide⟩
  | rbrack => exact ⟨by decide, by decide⟩
  | colon => exact ⟨by decide, by decide⟩
  | comma => exact ⟨by decide, by decide⟩
  | strTok s => exact ⟨by decide, by decide⟩
  | wordTok v =>
    obtain ⟨c, v2, rfl⟩ := List.exists_cons_of_ne_nil hwf.1
    have hc := hwf.2 c (by simp)
    obtain ⟨_, _, h3, h4⟩ := wordChar_not_special hc
    exact ⟨h3, h4⟩
  | commentTok => exact absurd rfl hnc
  | otherTok d =>
    simp only [needSep, Bool.and_eq_false_iff, beq_iff_eq, Bool.or_eq_false_iff,
      beq_eq_false_iff_ne] at hsep
    rcases hsep with h | ⟨h1, h2⟩
    · exact absurd rfl h
    · exact ⟨h1, h2⟩

/-- Prefix step of the round trip: scanning the emission of one well-formed
token, followed by a continuation whose head cannot merge with it, yields
that token and leaves the continuation. -/
theorem lex_emit_cons (t : Tok) (hwf : wfTok t) (hnc : t ≠ .commentTok) (r : List Char)
    (hw : ∀ w, t = .wordTok w → headNotWord r)
    (hs : t = .otherTok '/' → headNotSlashy r) :
    lex (emitTok t ++ r) = t :: lex r := by
  cases t with
  | lbrace =>
    simp only [emitTok, List.singleton_append]
    exact lex_punct (by decide) r
  | rbrace =>
    simp only [emitTok, List.singleton_append]
    exact lex_punct (by decide) r
  | lbrack =>
    simp only [emitTok, List.singleton_append]
    exact lex_punct (by decide) r
  | rbrack =>
    simp only [emitTok, List.singleton_append]
    exact lex_punct (by decide) r
  | colon =>
    simp only [emitTok, List.singleton_append]
    exact lex_punct (by decide) r
  | comma =>
    simp only [emitTok, List.singleton_append]
    exact lex_punct (by decide) r
  | strTok s =>
    simp only [emitTok]
    exact lex_str s r
  | wordTok w => exact lex_word hwf.1 hwf.2 (hw w rfl)
  | commentTok => exact absurd rfl hnc
  | otherTok c =>
    simp only [emitTok, List.singleton_append]
    exact lex_other hwf (fun h => hs (by rw [h]))

/-- Round trip: scanning the emission of a well-formed comment-free token
list recovers the token list exactly. -/
theorem lex_emitToks : ∀ ts : List Tok, wfList ts → noComment ts →
    lex (emitToks ts) = ts
  | [], _, _ => by simp [emitToks, lex_nil]
  | [t], hwf, hnc => by
    have h1 := hwf t (by simp)
    have h2 := hnc t (by simp)
    have h3 := lex_emit_cons t h1 h2 []
      (fun w _ => by exact trivial) (fun _ => by exact trivial)
    simp only [emitToks]
    calc lex (emitTok t) = lex (emitTok t ++ []) := by simp
    _ = [t] := by rw [h3, lex_nil]
  | t :: u :: ts, hwf, hnc => by
    have hwt := hwf t (by simp)
    have hnt := hnc t (by simp)
    have hwu := hwf u (by simp)
    have hnu := hnc u (by simp)
    have ih := lex_emitToks (u :: ts) (fun x hx => hwf x (by simp [hx]))
      (fun x hx => hnc x (by simp [hx]))
    obtain ⟨z, hz⟩ := emitToks_decomp u ts
    have hemit : emitToks (t :: u :: ts) =
        emitTok t ++ ((if needSep t u then [' '] else []) ++ emitToks (u :: ts)) := by
      simp [emitToks]
    by_cases hsep : needSep t u = true
    · rw [hemit, if_pos hsep, List.singleton_append]
      rw [lex_emit_cons t hwt hnt (' ' :: emitToks (u :: ts))
        (fun w _ => (by decide : isWordChar ' ' = false))
        (fun _ => ⟨by decide, by decide⟩)]
      rw [lex_ws_cons (by decide) (emitToks (u :: ts)), ih]
    · rw [hemit, if_neg hsep, List.nil_append]
      rw [lex_emit_cons t hwt hnt (emitToks (u :: ts)) ?condW ?condS]
      · rw [ih]
      case condW =>
        intro w hwteq
        subst hwteq
        rw [hz]
        exact sep_head_word hwu hnu (by simpa using hsep) z
      case condS =>
        intro hte
        subst hte
        rw [hz]
        exact sep_head_slash hwu hnu (by simpa using hsep) z

/-- Absence of the date pattern at every position. -/
def noDate : List Tok → Prop
  | [] => True
  | t :: ts => isDatePatB (t :: ts) = false ∧ noDate ts

/-- Absence of the unquoted-key pattern at every position. -/
def noKey : List Tok → Prop
  | [] => True
  | t :: ts => isKeyPatB (t :: ts) = false ∧ noKey ts

/-- Absence of the trailing-comma pattern at every position. -/
def noTrail : List Tok → Prop
  | [] => True
  | t :: ts => isTrailPatB (t :: ts) = false ∧ noTrail ts

/-- Absence of bare `undefined`/`NaN` word tokens. -/
def noBadWord (ts : List Tok) : Prop :=
  ∀ w : List Char, .wordTok w ∈ ts → w ≠ undefinedWord ∧ w ≠ nanWord

/-- Shape extraction for a matched date pattern. -/
theorem isDatePatB_shape {l : List Tok} (h : isDatePatB l = true) :
    ∃ s rest, l = .wordTok newWord :: .wordTok dateWord :: .otherTok '(' ::
      .strTok s :: .otherTok ')' :: rest := by
  unfold isDatePatB at h
  split at h
  · next n d c s c2 rest =>
    simp only [Bool.and_eq_true, beq_iff_eq] at h
    obtain ⟨⟨⟨h1, h2⟩, h3⟩, h4⟩ := h
    exact ⟨s, rest, by rw [h1, h2, h3, h4]⟩
  · exact absurd h (by simp)

/-- Shape extraction for a matched key pattern. -/
theorem isKeyPatB_shape {l : List Tok} (h : isKeyPatB l = true) :
    ∃ w rest, l = .wordTok w :: .colon :: rest := by
  unfold isKeyPatB at h
  split at h
  · next w rest => exact ⟨w, rest, rfl⟩
  · exact absurd h (by simp)

/-- Shape extraction for a matched trailing-comma pattern. -/
theorem isTrailPatB_shape {l : List Tok} (h : isTrailPatB l = true) :
    ∃ u rest, l = .comma :: u :: rest ∧ isCloser u = true := by
  unfold isTrailPatB at h
  split at h
  · next u rest => exact ⟨u, rest, rfl, h⟩
  · exact absurd h (by simp)

/-- A date step on an unmatched head is a plain cons. -/
theorem dateStep_false {t : Tok} {r : List Tok} (h : isDatePatB (t :: r) = false) :
    dateStep t r = t :: r := by
  unfold dateStep
  rw [h]
  simp

/-- A date step preserves pattern-freeness of the processed tail and never
leaves a pattern at the head. -/
theorem dateStep_noDate (t : Tok) (r : List Tok) (hr : noDate r) :
    noDate (dateStep t r) := by
  by_cases h : isDatePatB (t :: r) = true
  · obtain ⟨s, rest, hshape⟩ := isDatePatB_shape h
    obtain ⟨rfl, hr'⟩ := List.cons.injEq .. ▸ hshape
    subst hr'
    unfold dateStep
    rw [h]
    simp only [List.drop_succ_cons, List.drop_zero]
    refine ⟨rfl, ?_⟩
    exact hr.2.2.2.2
  · rw [dateStep_false (Bool.not_eq_true _ ▸ h)]
    exact ⟨Bool.not_eq_true _ ▸ h, hr⟩

/-- Output of the date repair is date-pattern-free. -/
theorem rewriteDates_noDate : ∀ ts : List Tok, noDate (rewriteDates ts)
  | [] => trivial
  | t :: ts => by
    rw [show rewriteDates (t :: ts) = dateStep t (rewriteDates ts) from rfl]
    exact dateStep_noDate t _ (rewriteDates_noDate ts)

/-- The date repair is the identity on date-pattern-free input. -/
theorem rewriteDates_id : ∀ ts : List Tok, noDate ts → rewriteDates ts = ts
  | [], _ => rfl
  | t :: ts, h => by
    rw [show rewriteDates (t :: ts) = dateStep t (rewriteDates ts) from rfl]
    rw [rewriteDates_id ts h.2]
    exact dateStep_false h.1

/-- A key step on an unmatched head is a plain cons. -/
theorem keyStep_false {t : Tok} {r : List Tok} (h : isKeyPatB (t :: r) = false) :
    keyStep t r = t :: r := by
  unfold keyStep
  rw [h]
  simp

/-- Output of key quoting is key-pattern-free. -/
theorem quoteKeys_noKey : ∀ ts : List Tok, noKey (quoteKeys ts)
  | [] => trivial
  | t :: ts => by
    have ih := quoteKeys_noKey ts
    rw [show quoteKeys (t :: ts) = keyStep t (quoteKeys ts) from rfl]
    by_cases h : isKeyPatB (t :: quoteKeys ts) = true
    · obtain ⟨w, rest, hshape⟩ := isKeyPatB_shape h
      obtain ⟨ht, hr⟩ := List.cons.injEq .. ▸ hshape
      unfold keyStep
      rw [h, hr]
      exact ⟨rfl, hr ▸ ih⟩
    · rw [keyStep_false (Bool.not_eq_true _ ▸ h)]
      exact ⟨Bool.not_eq_true _ ▸ h, ih⟩

/-- Key quoting is the identity on key-pattern-free input. -/
theorem quoteKeys_id : ∀ ts : List Tok, noKey ts → quoteKeys ts = ts
  | [], _ => rfl
  | t :: ts, h => by
    rw [show quoteKeys (t :: ts) = keyStep t (quoteKeys ts) from rfl]
    rw [quoteKeys_id ts h.2]
    exact keyStep_false h.1

/-- Pullback of a word head through key quoting. -/
theorem quoteKeys_cons_word {ts : List Tok} {v : List Char} {r2 : List Tok}
    (h : quoteKeys ts = .wordTok v :: r2) :
    ∃ ts2, ts = .wordTok v :: ts2 ∧ r2 = quoteKeys ts2 := by
  cases ts with
  | nil => exact absurd h (by simp [quoteKeys])
  | cons t2 ts2 =>
    rw [show quoteKeys (t2 :: ts2) = keyStep t2 (quoteKeys ts2) from rfl] at h
    by_cases hp : isKeyPatB (t2 :: quoteKeys ts2) = true
    · unfold keyStep at h
      rw [hp] at h
      simp at h
    · rw [keyStep_false (Bool.not_eq_true _ ▸ hp)] at h
      obtain ⟨h1, h2⟩ := List.cons.injEq .. ▸ h
      exact ⟨ts2, by rw [h1], h2.symm⟩

/-- Pullback of a non-word non-colon head through key quoting: a head token
that key quoting can neither produce nor consume comes from the input. -/
theorem quoteKeys_cons_other {ts : List Tok} {u : Tok} {r2 : List Tok}
    (hu1 : ∀ w, u ≠ .strTok w)
    (h : quoteKeys ts = u :: r2) :
    ∃ ts2, ts = u :: ts2 ∧ r2 = quoteKeys ts2 := by
  cases ts with
  | nil => exact absurd h (by simp [quoteKeys])
  | cons t2 ts2 =>
    rw [show quoteKeys (t2 :: ts2) = keyStep t2 (quoteKeys ts2) from rfl] at h
    by_cases hp : isKeyPatB (t2 :: quoteKeys ts2) = true
    · unfold keyStep at h
      rw [hp] at h
      exact absurd (List.cons.injEq .. ▸ h).1.symm (hu1 _)
    · rw [keyStep_false (Bool.not_eq_true _ ▸ hp)] at h
      obtain ⟨h1, h2⟩ := List.cons.injEq .. ▸ h
      exact ⟨ts2, by rw [h1], h2.symm⟩

/-- Pullback of a string head through key quoting: it is either an input
string, or a freshly quoted key and then followed by a colon. -/
theorem quoteKeys_cons_str {ts : List Tok} {s : List Char} {r2 : List Tok}
    (h : quoteKeys ts = .strTok s :: r2) :
    (∃ ts2, ts = .strTok s :: ts2 ∧ r2 = quoteKeys ts2) ∨
    (∃ r3, r2 = .colon :: r3) := by
  cases ts with
  | nil => exact absurd h (by simp [quoteKeys])
  | cons t2 ts2 =>
    rw [show quoteKeys (t2 :: ts2) = keyStep t2 (quoteKeys ts2) from rfl] at h
    by_cases hp : isKeyPatB (t2 :: quoteKeys ts2) = true
    · obtain ⟨w, rest, hshape⟩ := isKeyPatB_shape hp
      obtain ⟨ht, hr⟩ := List.cons.injEq .. ▸ hshape
      unfold keyStep at h
      rw [hp] at h
      obtain ⟨h1, h2⟩ := List.cons.injEq .. ▸ h
      right
      exact ⟨rest, by rw [← h2, hr]⟩
    · rw [keyStep_false (Bool.not_eq_true _ ▸ hp)] at h
      obtain ⟨h1, h2⟩ := List.cons.injEq .. ▸ h
      exact Or.inl ⟨ts2, by rw [h1], h2.symm⟩

/-- Key quoting preserves date-pattern-freeness. -/
theorem quoteKeys_noDate : ∀ ts : List Tok, noDate ts → noDate (quoteKeys ts)
  | [], _ => trivial
  | t :: ts, h => by
    have ih := quoteKeys_noDate ts h.2
    rw [show quoteKeys (t :: ts) = keyStep t (quoteKeys ts) from rfl]
    by_cases hp : isKeyPatB (t :: quoteKeys ts) = true
    · obtain ⟨w, rest, hshape⟩ := isKeyPatB_shape hp
      obtain ⟨ht, hr⟩ := List.cons.injEq .. ▸ hshape
      unfold keyStep
      rw [hp, hr]
      rw [hr] at ih
      exact ⟨rfl, ih⟩
    · rw [keyStep_false (Bool.not_eq_true _ ▸ hp)]
      refine ⟨?_, ih⟩
      by_contra hpat
      simp only [Bool.not_eq_false] at hpat
      obtain ⟨s, rest, hshape⟩ := isDatePatB_shape hpat
      obtain ⟨ht, hr⟩ := List.cons.injEq .. ▸ hshape
      obtain ⟨ts2, hts2, hr2⟩ := quoteKeys_cons_word hr
      obtain ⟨ts3, hts3, hr3⟩ := quoteKeys_cons_other
        (by intro w hw; exact Tok.noConfusion hw) hr2.symm
      rcases quoteKeys_cons_str hr3.symm with ⟨ts4, hts4, hr4⟩ | ⟨r3, hr4⟩
      · obtain ⟨ts5, hts5, hr5⟩ := quoteKeys_cons_other
          (by intro w hw; exact Tok.noConfusion hw) hr4.symm
        have hts : t :: ts = .wordTok newWord :: .wordTok dateWord :: .otherTok '(' ::
            .strTok s :: .otherTok ')' :: ts5 := by
          rw [ht, hts2, hts3, hts4, hts5]
        have htrue : isDatePatB (t :: ts) = true := by
          rw [hts]
          simp [isDatePatB]
        have hfalse : isDatePatB (t :: ts) = false := h.1
        rw [htrue] at hfalse
        exact absurd hfalse (by simp)
      · exact absurd hr4 (by simp)

/-- A comma step on an unmatched head is a plain cons. -/
theorem commaStep_false {t : Tok} {r : List Tok} (h : isTrailPatB (t :: r) = false) :
    commaStep t r = t :: r := by
  unfold commaStep
  rw [h]
  simp

/-- Output of trailing-comma removal is trailing-comma-free. -/
theorem rtc_noTrail : ∀ ts : List Tok, noTrail (rtc ts)
  | [] => trivial
  | t :: ts => by
    have ih := rtc_noTrail ts
    rw [show rtc (t :: ts) = commaStep t (rtc ts) from rfl]
    by_cases h : isTrailPatB (t :: rtc ts) = true
    · unfold commaStep
      rw [h]
      exact ih
    · rw [commaStep_false (Bool.not_eq_true _ ▸ h)]
      exact ⟨Bool.not_eq_true _ ▸ h, ih⟩

/-- Trailing-comma removal is the identity on trailing-comma-free input. -/
theorem rtc_id : ∀ ts : List Tok, noTrail ts → rtc ts = ts
  | [], _ => rfl
  | t :: ts, h => by
    rw [show rtc (t :: ts) = commaStep t (rtc ts) from rfl]
    rw [rtc_id ts h.2]
    exact commaStep_false h.1

/-- Pullback of a non-closer head through trailing-comma removal. -/
theorem rtc_cons_of_not_closer {ts : List Tok} {u : Tok} {r2 : List Tok}
    (hu : isCloser u = false) (h : rtc ts = u :: r2) :
    ∃ ts2, ts = u :: ts2 ∧ r2 = rtc ts2 := by
  cases ts with
  | nil => exact absurd h (by simp [rtc])
  | cons t2 ts2 =>
    rw [show rtc (t2 :: ts2) = commaStep t2 (rtc ts2) from rfl] at h
    by_cases hp : isTrailPatB (t2 :: rtc ts2) = true
    · obtain ⟨u2, rest2, hshape, hc2⟩ := isTrailPatB_shape hp
      obtain ⟨ht2, hrt⟩ := List.cons.injEq .. ▸ hshape
      unfold commaStep at h
      rw [hp] at h
      simp only [if_true] at h
      rw [h] at hrt
      obtain ⟨hu2, _⟩ := List.cons.injEq .. ▸ hrt
      rw [← hu2] at hc2
      rw [hc2] at hu
      exact absurd hu (by simp)
    · rw [commaStep_false (Bool.not_eq_true _ ▸ hp)] at h
      obtain ⟨h1, h2⟩ := List.cons.injEq .. ▸ h
      exact ⟨ts2, by rw [h1], h2.symm⟩

/-- Trailing-comma removal yields a sublist of its input. -/
theorem rtc_sublist : ∀ ts : List Tok, List.Sublist (rtc ts) ts
  | [] => List.Sublist.refl []
  | t :: ts => by
    have ih := rtc_sublist ts
    rw [show rtc (t :: ts) = commaStep t (rtc ts) from rfl]
    unfold commaStep
    split
    · exact ih.trans (List.sublist_cons_self t ts)
    · exact ih.cons₂ t

/-- Trailing-comma removal preserves date-pattern-freeness. -/
theorem rtc_noDate : ∀ ts : List Tok, noDate ts → noDate (rtc ts)
  | [], _ => trivial
  | t :: ts, h => by
    have ih := rtc_noDate ts h.2
    rw [show rtc (t :: ts) = commaStep t (rtc ts) from rfl]
    by_cases hp : isTrailPatB (t :: rtc ts) = true
    · unfold commaStep
      rw [hp]
      exact ih
    · rw [commaStep_false (Bool.not_eq_true _ ▸ hp)]
      refine ⟨?_, ih⟩
      by_contra hpat
      simp only [Bool.not_eq_false] at hpat
      obtain ⟨s, rest, hshape⟩ := isDatePatB_shape hpat
      obtain ⟨ht, hr⟩ := List.cons.injEq .. ▸ hshape
      obtain ⟨ts2, hts2, hr2⟩ := rtc_cons_of_not_closer (by simp [isCloser]) hr
      obtain ⟨ts3, hts3, hr3⟩ := rtc_cons_of_not_closer (by simp [isCloser]) hr2.symm
      obtain ⟨ts4, hts4, hr4⟩ := rtc_cons_of_not_closer (by simp [isCloser]) hr3.symm
      obtain ⟨ts5, hts5, hr5⟩ := rtc_cons_of_not_closer (by simp [isCloser]) hr4.symm
      have hts : t :: ts = .wordTok newWord :: .wordTok dateWord :: .otherTok '(' ::
          .strTok s :: .otherTok ')' :: ts5 := by
        rw [ht, hts2, hts3, hts4, hts5]
      have htrue : isDatePatB (t :: ts) = true := by
        rw [hts]
        simp [isDatePatB]
      have hfalse : isDatePatB (t :: ts) = false := h.1
      rw [htrue] at hfalse
      exact absurd hfalse (by simp)

/-- Trailing-comma removal preserves key-pattern-freeness. -/
theorem rtc_noKey : ∀ ts : List Tok, noKey ts → noKey (rtc ts)
  | [], _ => trivial
  | t :: ts, h => by
    have ih := rtc_noKey ts h.2
    rw [show rtc (t :: ts) = commaStep t (rtc ts) from rfl]
    by_cases hp : isTrailPatB (t :: rtc ts) = true
    · unfold commaStep
      rw [hp]
      exact ih
    · rw [commaStep_false (Bool.not_eq_true _ ▸ hp)]
      refine ⟨?_, ih⟩
      by_contra hpat
      simp only [Bool.not_eq_false] at hpat
      obtain ⟨w, rest, hshape⟩ := isKeyPatB_shape hpat
      obtain ⟨ht, hr⟩ := List.cons.injEq .. ▸ hshape
      obtain ⟨ts2, hts2, hr2⟩ := rtc_cons_of_not_closer (by simp [isCloser]) hr
      have hts : t :: ts = .wordTok w :: .colon :: ts2 := by
        rw [ht, hts2]
      have htrue : isKeyPatB (t :: ts) = true := by
        rw [hts]
        simp [isKeyPatB]
      have hfalse : isKeyPatB (t :: ts) = false := h.1
      rw [htrue] at hfalse
      exact absurd hfalse (by simp)

/-- Comment stripping removes every comment token. -/
theorem stripComments_noComment (ts : List Tok) : noComment (stripComments ts) := by
  intro t ht
  have := List.of_mem_filter ht
  intro h
  subst h
  simp at this

/-- Comment stripping yields a sublist of its input. -/
theorem stripComments_sublist (ts : List Tok) : List.Sublist (stripComments ts) ts :=
  List.filter_sublist ts

/-- Word normalization never leaves a bare `undefined`/`NaN`. -/
theorem mapWord_not_bad (t : Tok) (w : List Char) (h : mapWord t = .wordTok w) :
    w ≠ undefinedWord ∧ w ≠ nanWord := by
  cases t with
  | wordTok v =>
    simp only [mapWord] at h
    split_ifs at h with hv
    · obtain h2 := (Tok.wordTok.injEq .. ▸ h)
      subst h2
      exact ⟨by decide, by decide⟩
    · obtain h2 := (Tok.wordTok.injEq .. ▸ h)
      subst h2
      push_neg at hv
      exact hv
  | lbrace => exact absurd h (by simp [mapWord])
  | rbrace => exact absurd h (by simp [mapWord])
  | lbrack => exact absurd h (by simp [mapWord])
  | rbrack => exact absurd h (by simp [mapWord])
  | colon => exact absurd h (by simp [mapWord])
  | comma => exact absurd h (by simp [mapWord])
  | strTok s => exact absurd h (by simp [mapWord])
  | commentTok => exact absurd h (by simp [mapWord])
  | otherTok c => exact absurd h (by simp [mapWord])

/-- Output of word normalization has no bare `undefined`/`NaN`. -/
theorem mapWords_noBadWord (ts : List Tok) : noBadWord (mapWords ts) := by
  intro w hw
  obtain ⟨t, _, ht⟩ := List.mem_map.mp hw
  exact mapWord_not_bad t w ht

/-- Word normalization is the identity when no bare `undefined`/`NaN` occurs. -/
theorem mapWords_id : ∀ ts : List Tok, noBadWord ts → mapWords ts = ts
  | [], _ => rfl
  | t :: ts, h => by
    have h2 : noBadWord ts := fun w hw => h w (List.mem_cons_of_mem t hw)
    have ht : mapWord t = t := by
      cases t with
      | wordTok v =>
        have hv := h v (List.mem_cons_self _ _)
        simp only [mapWord]
        rw [if_neg (by rintro (hh | hh); exacts [hv.1 hh, hv.2 hh])]
      | lbrace => rfl
      | rbrace => rfl
      | lbrack => rfl
      | rbrack => rfl
      | colon => rfl
      | comma => rfl
      | strTok s => rfl
      | commentTok => rfl
      | otherTok c => rfl
    rw [show mapWords (t :: ts) = mapWord t :: mapWords ts from rfl, ht, mapWords_id ts h2]

/-- Pullback of a word head through word normalization, for word content that
normalization cannot produce from a different word. -/
theorem mapWord_eq_word_fixed {t : Tok} {v : List Char}
    (hv : v ≠ nullWord) (h : mapWord t = .wordTok v) : t = .wordTok v := by
  cases t with
  | wordTok w =>
    simp only [mapWord] at h
    split_ifs at h with hc
    · obtain h2 := (Tok.wordTok.injEq .. ▸ h)
      exact absurd h2.symm hv
    · exact h
  | lbrace => exact absurd h (by simp [mapWord])
  | rbrace => exact absurd h (by simp [mapWord])
  | lbrack => exact absurd h (by simp [mapWord])
  | rbrack => exact absurd h (by simp [mapWord])
  | colon => exact absurd h (by simp [mapWord])
  | comma => exact absurd h (by simp [mapWord])
  | strTok s => exact absurd h (by simp [mapWord])
  | commentTok => exact absurd h (by simp [mapWord])
  | otherTok c => exact absurd h (by simp [mapWord])

/-- Pullback of a non-word token through word normalization. -/
theorem mapWord_eq_nonword {t u : Tok} (hu : ∀ w, u ≠ .wordTok w)
    (h : mapWord t = u) : t = u := by
  cases t with
  | wordTok w =>
    simp only [mapWord] at h
    split_ifs at h <;> exact absurd h.symm (hu _)
  | lbrace => exact h
  | rbrace => exact h
  | lbrack => exact h
  | rbrack => exact h
  | colon => exact h
  | comma => exact h
  | strTok s => exact h
  | commentTok => exact h
  | otherTok c => exact h

/-- Decomposition of a word-normalized list with a cons head. -/
theorem mapWords_cons_inv {ts : List Tok} {u : Tok} {r2 : List Tok}
    (h : mapWords ts = u :: r2) :
    ∃ t2 ts2, ts = t2 :: ts2 ∧ mapWord t2 = u ∧ r2 = mapWords ts2 := by
  cases ts with
  | nil => exact absurd h (by simp [mapWords])
  | cons t2 ts2 =>
    obtain ⟨h1, h2⟩ := List.cons.injEq .. ▸
      (show mapWord t2 :: mapWords ts2 = u :: r2 from h)
    exact ⟨t2, ts2, rfl, h1, h2.symm⟩

/-- Word normalization preserves date-pattern-freeness. -/
theorem mapWords_noDate : ∀ ts : List Tok, noDate ts → noDate (mapWords ts)
  | [], _ => trivial
  | t :: ts, h => by
    have ih := mapWords_noDate ts h.2
    rw [show mapWords (t :: ts) = mapWord t :: mapWords ts from rfl]
    refine ⟨?_, ih⟩
    by_contra hpat
    simp only [Bool.not_eq_false] at hpat
    obtain ⟨s, rest, hshape⟩ := isDatePatB_shape hpat
    obtain ⟨ht, hr⟩ := List.cons.injEq .. ▸ hshape
    have ht2 : t = .wordTok newWord := mapWord_eq_word_fixed (by decide) ht
    obtain ⟨a2, as2, hts2, hm2, hr2⟩ := mapWords_cons_inv hr
    have ha2 : a2 = .wordTok dateWord := mapWord_eq_word_fixed (by decide) hm2
    obtain ⟨a3, as3, hts3, hm3, hr3⟩ := mapWords_cons_inv hr2.symm
    have ha3 : a3 = .otherTok '(' := mapWord_eq_nonword
      (by intro w hw; exact Tok.noConfusion hw) hm3
    obtain ⟨a4, as4, hts4, hm4, hr4⟩ := mapWords_cons_inv hr3.symm
    have ha4 : a4 = .strTok s := mapWord_eq_nonword
      (by intro w hw; exact Tok.noConfusion hw) hm4
    obtain ⟨a5, as5, hts5, hm5, hr5⟩ := mapWords_cons_inv hr4.symm
    have ha5 : a5 = .otherTok ')' := mapWord_eq_nonword
      (by intro w hw; exact Tok.noConfusion hw) hm5
    have hts : t :: ts = .wordTok newWord :: .wordTok dateWord :: .otherTok '(' ::
        .strTok s :: .otherTok ')' :: as5 := by
      rw [ht2, hts2, ha2, hts3, ha3, hts4, ha4, hts5, ha5]
    have htrue : isDatePatB (t :: ts) = true := by
      rw [hts]
      simp [isDatePatB]
    have hfalse : isDatePatB (t :: ts) = false := h.1
    rw [htrue] at hfalse
    exact absurd hfalse (by simp)

/-- Word normalization preserves key-pattern-freeness. -/
theorem mapWords_noKey : ∀ ts : List Tok, noKey ts → noKey (mapWords ts)
  | [], _ => trivial
  | t :: ts, h => by
    have ih := mapWords_noKey ts h.2
    rw [show mapWords (t :: ts) = mapWord t :: mapWords ts from rfl]
    refine ⟨?_, ih⟩
    by_contra hpat
    simp only [Bool.not_eq_false] at hpat
    obtain ⟨w, rest, hshape⟩ := isKeyPatB_shape hpat
    obtain ⟨ht, hr⟩ := List.cons.injEq .. ▸ hshape
    obtain ⟨v, hv⟩ : ∃ v, t = .wordTok v := by
      cases t with
      | wordTok v => exact ⟨v, rfl⟩
      | lbrace => exact absurd ht (by simp [mapWord])
      | rbrace => exact absurd ht (by simp [mapWord])
      | lbrack => exact absurd ht (by simp [mapWord])
      | rbrack => exact absurd ht (by simp [mapWord])
      | colon => exact absurd ht (by simp [mapWord])
      | comma => exact absurd ht (by simp [mapWord])
      | strTok s => exact absurd ht (by simp [mapWord])
      | commentTok => exact absurd ht (by simp [mapWord])
      | otherTok c => exact absurd ht (by simp [mapWord])
    obtain ⟨a2, as2, hts2, hm2, hr2⟩ := mapWords_cons_inv hr
    have ha2 : a2 = .colon := mapWord_eq_nonword
      (by intro w2 hw; exact Tok.noConfusion hw) hm2
    have htrue : isKeyPatB (t :: ts) = true := by
      rw [hv, hts2, ha2]
      simp [isKeyPatB]
    have hfalse : isKeyPatB (t :: ts) = false := h.1
    rw [htrue] at hfalse
    exact absurd hfalse (by simp)

/-- Cons introduction for `wfList`. -/
theorem wfList_cons_intro {t : Tok} {ts : List Tok} (h1 : wfTok t) (h2 : wfList ts) :
    wfList (t :: ts) := by
  intro x hx
  rcases List.mem_cons.mp hx with hx | hx
  · exact hx ▸ h1
  · exact h2 x hx

/-- Cons introduction for `noComment`. -/
theorem noComment_cons_intro {t : Tok} {ts : List Tok} (h1 : t ≠ .commentTok)
    (h2 : noComment ts) : noComment (t :: ts) := by
  intro x hx
  rcases List.mem_cons.mp hx with hx | hx
  · exact hx ▸ h1
  · exact h2 x hx

/-- Membership in a date-step output. -/
theorem dateStep_mem {t x : Tok} {R : List Tok} (hx : x ∈ dateStep t R) :
    (∃ s, x = .strTok s) ∨ x = t ∨ x ∈ R := by
  unfold dateStep at hx
  split at hx
  · rcases List.mem_cons.mp hx with hx | hx
    · exact Or.inl ⟨thirdStr R, hx⟩
    · exact Or.inr (Or.inr (List.mem_of_mem_drop hx))
  · rcases List.mem_cons.mp hx with hx | hx
    · exact Or.inr (Or.inl hx)
    · exact Or.inr (Or.inr hx)

/-- Membership in a key-step output. -/
theorem keyStep_mem {t x : Tok} {R : List Tok} (hx : x ∈ keyStep t R) :
    (∃ s, x = .strTok s) ∨ x = t ∨ x ∈ R := by
  unfold keyStep at hx
  split at hx
  · rcases List.mem_cons.mp hx with hx | hx
    · exact Or.inl ⟨wordOf t, hx⟩
    · exact Or.inr (Or.inr hx)
  · rcases List.mem_cons.mp hx with hx | hx
    · exact Or.inr (Or.inl hx)
    · exact Or.inr (Or.inr hx)

/-- Membership in a comma-step output. -/
theorem commaStep_mem {t x : Tok} {R : List Tok} (hx : x ∈ commaStep t R) :
    x = t ∨ x ∈ R := by
  unfold commaStep at hx
  split at hx
  · exact Or.inr hx
  · rcases List.mem_cons.mp hx with hx | hx
    · exact Or.inl hx
    · exact Or.inr hx

/-- The date repair preserves token well-formedness. -/
theorem rewriteDates_wf : ∀ ts : List Tok, wfList ts → wfList (rewriteDates ts)
  | [], h => h
  | t :: ts, h => by
    have ih := rewriteDates_wf ts (fun x hx => h x (List.mem_cons_of_mem t hx))
    intro x hx
    rcases dateStep_mem hx with ⟨s, rfl⟩ | rfl | hx
    · trivial
    · exact h x (List.mem_cons_self _ _)
    · exact ih x hx

/-- The date repair introduces no comments. -/
theorem rewriteDates_noComment : ∀ ts : List Tok, noComment ts →
    noComment (rewriteDates ts)
  | [], h => h
  | t :: ts, h => by
    have ih := rewriteDates_noComment ts (fun x hx => h x (List.mem_cons_of_mem t hx))
    intro x hx
    rcases dateStep_mem hx with ⟨s, rfl⟩ | rfl | hx
    · intro hc
      exact Tok.noConfusion hc
    · exact h x (List.mem_cons_self _ _)
    · exact ih x hx

/-- Key quoting preserves token well-formedness. -/
theorem quoteKeys_wf : ∀ ts : List Tok, wfList ts → wfList (quoteKeys ts)
  | [], h => h
  | t :: ts, h => by
    have ih := quoteKeys_wf ts (fun x hx => h x (List.mem_cons_of_mem t hx))
    intro x hx
    rcases keyStep_mem hx with ⟨s, rfl⟩ | rfl | hx
    · trivial
    · exact h x (List.mem_cons_self _ _)
    · exact ih x hx

/-- Key quoting introduces no comments. -/
theorem quoteKeys_noComment : ∀ ts : List Tok, noComment ts →
    noComment (quoteKeys ts)
  | [], h => h
  | t :: ts, h => by
    have ih := quoteKeys_noComment ts (fun x hx => h x (List.mem_cons_of_mem t hx))
    intro x hx
    rcases keyStep_mem hx with ⟨s, rfl⟩ | rfl | hx
    · intro hc
      exact Tok.noConfusion hc
    · exact h x (List.mem_cons_self _ _)
    · exact ih x hx

/-- Word normalization preserves token well-formedness. -/
theorem mapWords_wf (ts : List Tok) (h : wfList ts) : wfList (mapWords ts) := by
  intro x hx
  obtain ⟨t, ht, rfl⟩ := List.mem_map.mp hx
  cases t with
  | wordTok v =>
    simp only [mapWord]
    split_ifs with hc
    · exact ⟨by decide, by decide⟩
    · exact h _ ht
  | lbrace => exact h _ ht
  | rbrace => exact h _ ht
  | lbrack => exact h _ ht
  | rbrack => exact h _ ht
  | colon => exact h _ ht
  | comma => exact h _ ht
  | strTok s => exact h _ ht
  | commentTok => exact h _ ht
  | otherTok c => exact h _ ht

/-- Word normalization introduces no comments. -/
theorem mapWords_noComment (ts : List Tok) (h : noComment ts) :
    noComment (mapWords ts) := by
  intro x hx
  obtain ⟨t, ht, rfl⟩ := List.mem_map.mp hx
  intro hc
  exact h t ht (mapWord_eq_nonword (by intro w hw; exact Tok.noConfusion hw) hc)

/-- Sublists inherit `wfList`. -/
theorem wfList_of_sublist {ts ts2 : List Tok} (h : List.Sublist ts2 ts)
    (hw : wfList ts) : wfList ts2 :=
  fun t ht => hw t (h.subset ht)

/-- Sublists inherit `noComment`. -/
theorem noComment_of_sublist {ts ts2 : List Tok} (h : List.Sublist ts2 ts)
    (hw : noComment ts) : noComment ts2 :=
  fun t ht => hw t (h.subset ht)

/-- Sublists inherit `noBadWord`. -/
theorem noBadWord_of_sublist {ts ts2 : List Tok} (h : List.Sublist ts2 ts)
    (hw : noBadWord ts) : noBadWord ts2 :=
  fun w hw2 => hw w (h.subset hw2)

/-- Every token produced by the scanner is well-formed. -/
theorem lex_wf : ∀ s : List Char, wfList (lex s)
  | [] => by
    rw [lex_nil]
    intro t ht
    simp at ht
  | c :: cs => by
    rw [lex_cons]
    by_cases h1 : isJsWs c = true
    · simp only [h1, if_true, ite_true]
      exact lex_wf cs
    · by_cases h2 : c = dquoteC ∨ c = squoteC
      · simp only [h1, h2, if_true, ite_true, Bool.false_eq_true, if_false, ite_false]
        exact wfList_cons_intro trivial (lex_wf (lexStrBody c cs).2)
      · by_cases h3 : c = '/'
        · simp only [h1, h2, h3, if_true, ite_true, Bool.false_eq_true, if_false, ite_false]
          subst h3
          cases cs with
          | nil => exact wfList_cons_intro (by exact ⟨by decide, by decide, by decide,
              by decide, by decide⟩) (lex_wf [])
          | cons d cs2 =>
            by_cases hd1 : d = '/'
            · subst hd1
              exact wfList_cons_intro trivial (lex_wf (dropLineComment cs2))
            · by_cases hd2 : d = '*'
              · subst hd2
                exact wfList_cons_intro trivial (lex_wf (dropBlockComment cs2))
              · have hm : (match (d :: cs2 : List Char) with
                    | '/' :: cs2 => Tok.commentTok :: lex (dropLineComment cs2)
                    | '*' :: cs2 => Tok.commentTok :: lex (dropBlockComment cs2)
                    | cs3 => Tok.otherTok '/' :: lex cs3) =
                    Tok.otherTok '/' :: lex (d :: cs2) := by
                  split
                  · next heq => exact absurd (List.cons.injEq .. ▸ heq).1 hd1
                  · next heq => exact absurd (List.cons.injEq .. ▸ heq).1 hd2
                  · rfl
                rw [hm]
                exact wfList_cons_intro (by exact ⟨by decide, by decide, by decide,
                  by decide, by decide⟩) (lex_wf (d :: cs2))
        · by_cases h4 : ∃ t, punctTok? c = some t
          · obtain ⟨t, ht⟩ := h4
            simp only [h1, h2, h3, ht, Bool.false_eq_true, if_false, ite_false]
            refine wfList_cons_intro ?_ (lex_wf cs)
            unfold punctTok? at ht
            split_ifs at ht <;> (obtain rfl := (Option.some.injEq .. ▸ ht); trivial)
          · have hp : punctTok? c = none := by
              cases hpc : punctTok? c with
              | none => rfl
              | some t => exact absurd ⟨t, hpc⟩ h4
            by_cases h5 : isWordChar c = true
            · simp only [h1, h2, h3, hp, h5, Bool.false_eq_true, if_false, ite_false,
                if_true, ite_true]
              refine wfList_cons_intro ?_ (lex_wf ((c :: cs).dropWhile isWordChar))
              constructor
              · rw [List.takeWhile_cons, if_pos h5]
                simp
              · intro x hx
                exact List.mem_takeWhile_imp hx
            · simp only [h1, h2, h3, hp, h5, Bool.false_eq_true, if_false, ite_false]
              refine wfList_cons_intro ?_ (lex_wf cs)
              push_neg at h2
              exact ⟨Bool.not_eq_true _ ▸ h1, h2.1, h2.2, hp, Bool.not_eq_true _ ▸ h5⟩
termination_by s => s.length
decreasing_by
  all_goals simp only [List.length_cons]
  all_goals first
  | omega
  | (exact Nat.lt_of_le_of_lt (lexStrBody_length _ _) (by omega))
  | (exact Nat.lt_of_le_of_lt (dropLineComment_length _) (by omega))
  | (exact Nat.lt_of_le_of_lt (dropBlockComment_length _) (by omega))
  | (rw [List.dropWhile_cons]
     split
    
     · exact Nat.lt_of_le_of_lt (dropWhile_length _ _) (by omega)
    
     · simp_all)

/-- Comment stripping is the identity on comment-free input. -/
theorem stripComments_id (ts : List Tok) (h : noComment ts) : stripComments ts = ts := by
  unfold stripComments
  apply List.filter_eq_self.mpr
  intro t ht
  cases t with
  | commentTok => exact absurd rfl (h _ ht)
  | lbrace => rfl
  | rbrace => rfl
  | lbrack => rfl
  | rbrack => rfl
  | colon => rfl
  | comma => rfl
  | strTok s => rfl
  | wordTok w => rfl
  | otherTok c => rfl

/-- The sanitizer pipeline preserves token well-formedness. -/
theorem sanitizeToks_wf (ts : List Tok) (h : wfList ts) : wfList (sanitizeToks ts) :=
  wfList_of_sublist (rtc_sublist _)
    (mapWords_wf _ (quoteKeys_wf _ (rewriteDates_wf _
      (wfList_of_sublist (stripComments_sublist ts) h))))

/-- The sanitizer pipeline output is comment-free. -/
theorem sanitizeToks_noComment (ts : List Tok) : noComment (sanitizeToks ts) :=
  noComment_of_sublist (rtc_sublist _)
    (mapWords_noComment _ (quoteKeys_noComment _ (rewriteDates_noComment _
      (stripComments_noComment ts))))

/-- The sanitizer pipeline output is date-pattern-free. -/
theorem sanitizeToks_noDate (ts : List Tok) : noDate (sanitizeToks ts) :=
  rtc_noDate _ (mapWords_noDate _ (quoteKeys_noDate _ (rewriteDates_noDate _)))

/-- The sanitizer pipeline output is key-pattern-free. -/
theorem sanitizeToks_noKey (ts : List Tok) : noKey (sanitizeToks ts) :=
  rtc_noKey _ (mapWords_noKey _ (quoteKeys_noKey _))

/-- The sanitizer pipeline output has no bare `undefined`/`NaN`. -/
theorem sanitizeToks_noBadWord (ts : List Tok) : noBadWord (sanitizeToks ts) :=
  noBadWord_of_sublist (rtc_sublist _) (mapWords_noBadWord _)

/-- The sanitizer pipeline output is trailing-comma-free. -/
theorem sanitizeToks_noTrail (ts : List Tok) : noTrail (sanitizeToks ts) :=
  rtc_noTrail _

/-- The sanitizer pipeline is the identity on canonical token lists. -/
theorem sanitizeToks_id (ts : List Tok) (h1 : noComment ts) (h2 : noDate ts)
    (h3 : noKey ts) (h4 : noBadWord ts) (h5 : noTrail ts) : sanitizeToks ts = ts := by
  unfold sanitizeToks
  rw [stripComments_id ts h1, rewriteDates_id ts h2, quoteKeys_id ts h3,
    mapWords_id ts h4, rtc_id ts h5]

/-- Status actually computed by the three-branch chain of
`processMaintenanceData` from the first timeslot's times, written as one
total function (the fall-through after the three branches is unreachable
over a linear time order). -/
def statusOf (s e now : Int) : MStatus :=
  if now ≥ s ∧ now < e then .underMaintenance
  else if now < s then .scheduled
  else .ended

/-- Decimal digit-string value, used to instantiate the abstract timestamp
parser on concrete inputs. -/
def strToNat (s : List Char) : Nat :=
  s.foldl (fun a c => a * 10 + (c.toNat - 48)) 0

/-- Concrete timestamp parser for witnesses and counterexamples. -/
def toTimeNum (s : String) : Int := (strToNat s.data : Int)

/-- Legacy-convention script of the spec's Script Locator example. -/
def preloadExampleScript : List Char :=
  ("window.preloadData = \x7b\"config\":\x7b\"theme\":\"dark\"\x7d\x7d;").toList

/-- Document carrying only the legacy example script. -/
def preloadExampleDoc : HtmlDoc :=
  { preloadText := [], scripts := [preloadExampleScript] }

/-- Legacy-convention script whose payload is followed, on the same line, by
further statements containing a closing brace and semicolon. -/
def preloadCexScript : List Char :=
  ("window.preloadData = \x7b\"a\":1\x7d;const x = \x7bb:2\x7d;").toList

/-- Document carrying only the brace-rich legacy script. -/
def preloadCexDoc : HtmlDoc :=
  { preloadText := [], scripts := [preloadCexScript] }

/-- Maintenance item whose first timeslot has its start after its end. -/
def invertedSlotItem : Maintenance :=
  { id := 1
    title := "window"
    description := ""
    timeslotList := some [{ startDate := "10", endDate := "5" }]
    status := none }

/-- Two-page environment whose default page is the second page. -/
def twoPageEnv : EnvConfig :=
  { baseUrl := "https://status.example"
    defaultPageId := "b"
    pages :=
      [{ id := "a", name := none,
         siteMeta := { title := "A", description := "first", icon := "/a.svg" } },
       { id := "b", name := none,
         siteMeta := { title := "B", description := "second", icon := "/b.svg" } }]
    isEditThisPage := false
    isShowStarButton := true }

/-- Payload with the configuration object missing entirely. -/
def configlessPayload : PreloadData :=
  { config := none, incident := none, maintenanceList := .missing }

/-- Valid configuration field list with an unrecognized theme string. -/
def purpleConfigFields : List (String × JValue) :=
  [("slug", JValue.str "s"), ("title", JValue.str "t"),
   ("description", JValue.str "d"), ("icon", JValue.str "/i.svg"),
   ("theme", JValue.str "purple")]

/-- Payload with a valid config and an unrecognized theme. -/
def purplePayload : PreloadData :=
  { config := some purpleConfigFields, incident := none, maintenanceList := .seq [] }

/-- Payload whose `maintenanceList` is present but is a number, not an array. -/
def nonSeqMaintPayload : PreloadData :=
  { config := some purpleConfigFields, incident := none,
    maintenanceList := .nonSeq (JValue.num 5) }

/-- A literal strips off its own prefix. -/
theorem stripLit_self : ∀ p s : List Char, stripLit p (p ++ s) = some s
  | [], s => rfl
  | c :: p, s => by simp [stripLit, stripLit_self p s]

/-- Dropping an all-satisfying prefix stops exactly at the continuation. -/
theorem dropWhile_all_append (p : Char → Bool) :
    ∀ w : List Char, (∀ c ∈ w, p c = true) → ∀ r : List Char,
      (∀ d, r.head? = some d → p d = false) → (w ++ r).dropWhile p = r
  | [], _, r, hr => by
    cases r with
    | nil => simp
    | cons d r2 =>
      rw [List.nil_append, List.dropWhile_cons, if_neg]
      simp [hr d rfl]
  | c :: w, hall, r, hr => by
    rw [List.cons_append, List.dropWhile_cons, if_pos (hall c (by simp))]
    exact dropWhile_all_append p w (fun d hd => hall d (by simp [hd])) r hr

/-- Taking while a predicate holds of every element is the identity. -/
theorem takeWhile_all (p : Char → Bool) : ∀ l : List Char,
    (∀ c ∈ l, p c = true) → l.takeWhile p = l
  | [], _ => rfl
  | c :: l, h => by
    rw [List.takeWhile_cons, if_pos (h c (by simp))]
    rw [takeWhile_all p l (fun d hd => h d (by simp [hd]))]

/-- Specification of the countdown scan: it returns the largest hit below its
bound. -/
theorem lbsDown_spec (l : List Char) : ∀ n k : Nat, lbsDown l n = some k →
    k < n ∧ braceSemiAt l k = true ∧ ∀ j, k < j → j < n → braceSemiAt l j = false
  | 0, k => by simp [lbsDown]
  | n + 1, k => by
    intro h
    unfold lbsDown at h
    split_ifs at h with hb
    · obtain rfl : n = k := Option.some.injEq .. ▸ h
      exact ⟨by omega, hb, fun j hj1 hj2 => absurd (And.intro hj1 hj2) (by omega)⟩
    · have ih := lbsDown_spec l n k h
      refine ⟨by omega, ih.2.1, fun j hj1 hj2 => ?_⟩
      by_cases hjn : j = n
      · subst hjn
        exact Bool.not_eq_true _ ▸ hb
      · exact ih.2.2 j hj1 (by omega)

/-- Beyond the end of the line there is no brace-semicolon pair. -/
theorem braceSemiAt_ge_len {l : List Char} {j : Nat} (h : l.length ≤ j) :
    braceSemiAt l j = false := by
  unfold braceSemiAt
  rw [List.getD_eq_default, List.getD_eq_default]
  · simp [rbraceC]
  · omega
  · exact h

/-- Looking up `theme` after the spread override returns the override. -/
theorem lookupField_overrideTheme : ∀ cfg : List (String × JValue), ∀ t : String,
    hasField cfg "theme" = true →
    lookupField (overrideTheme cfg t) "theme" = some (JValue.str t)
  | [], t, h => by simp [hasField] at h
  | p :: cfg, t, h => by
    by_cases hp : p.1 = "theme"
    · simp [overrideTheme, lookupField, hp]
    · have hbeq : (p.1 == "theme") = false := by simpa using hp
      have h2 : hasField cfg "theme" = true := by
        simpa [hasField, hbeq] using h
      have ih := lookupField_overrideTheme cfg t h2
      simp only [overrideTheme, List.map_cons, hbeq, Bool.false_eq_true, if_false,
        ite_false] at ih ⊢
      simp only [lookupField, List.find?_cons, hbeq] at ih ⊢
      exact ih

/-- Frame property of one maintenance item: id, title and description pass
through; the timeslot list is changed only by per-slot normalization. -/
theorem processOne_frame (utc : String → String) (toTime : String → Int)
    (now : Int) (m : Maintenance) :
    (processOneMaintenance utc toTime now m).id = m.id ∧
    (processOneMaintenance utc toTime now m).title = m.title ∧
    (processOneMaintenance utc toTime now m).description = m.description ∧
    (processOneMaintenance utc toTime now m).timeslotList =
      (match m.timeslotList with
       | some (s :: rest) => some ((s :: rest).map (fun (slot : Timeslot) =>
           { startDate := utc slot.startDate, endDate := utc slot.endDate }))
       | x => x) := by
  unfold processOneMaintenance
  cases hm : m.timeslotList with
  | none => simp [hm]
  | some l =>
    cases l with
    | nil => simp [hm]
    | cons s rest =>
      simp only [hm, List.map_cons]
      split_ifs <;> simp

/-- Status equation of one maintenance item with a first timeslot. -/
theorem processOne_status_cons (utc : String → String) (toTime : String → Int)
    (now : Int) (m : Maintenance) (s0 : Timeslot) (rest : List Timeslot)
    (hm : m.timeslotList = some (s0 :: rest)) :
    (processOneMaintenance utc toTime now m).status =
      some (statusOf (toTime (utc s0.startDate)) (toTime (utc s0.endDate)) now) := by
  unfold processOneMaintenance statusOf
  simp only [hm, List.map_cons]
  split_ifs with h1 h2 h3
  · simp
  · simp
  · simp
  · exfalso
    rcases not_and_or.mp h1 with h | h <;> omega

/-- A maintenance item with no first timeslot keeps its incoming status. -/
theorem processOne_status_empty (utc : String → String) (toTime : String → Int)
    (now : Int) (m : Maintenance)
    (hm : m.timeslotList = none ∨ m.timeslotList = some []) :
    (processOneMaintenance utc toTime now m).status = m.status := by
  unfold processOneMaintenance
  rcases hm with hm | hm <;> simp [hm]

/-- Claim C3: the Sanitizer is idempotent — for every input string `x`,
sanitizing twice yields the same output as sanitizing once. -/
theorem C3_sanitizer_idempotent (x : String) :
    sanitizeJsonString (sanitizeJsonString x) = sanitizeJsonString x := by
  unfold sanitizeJsonString
  have hdata : (String.mk (emitToks (sanitizeToks (lex x.data)))).data
      = emitToks (sanitizeToks (lex x.data)) := rfl
  rw [hdata]
  rw [lex_emitToks (sanitizeToks (lex x.data))
    (sanitizeToks_wf _ (lex_wf _)) (sanitizeToks_noComment _)]
  rw [sanitizeToks_id _ (sanitizeToks_noComment _) (sanitizeToks_noDate _)
    (sanitizeToks_noKey _) (sanitizeToks_noBadWord _) (sanitizeToks_noTrail _)]

/-- Claim C10: `processMaintenanceData` returns a list of the same length and
order; each output element is the per-item calculator applied to the
corresponding input element, which preserves id, title and description and
changes `timeslotList` only by normalizing each slot's dates — so `status`
is the only newly assigned field. -/
theorem C10_maintenance_frame (utc : String → String) (toTime : String → Int)
    (now : Int) (l : List Maintenance) :
    (processMaintenanceData utc toTime now l).length = l.length ∧
    (∀ i : Nat, (processMaintenanceData utc toTime now l)[i]? =
      (l[i]?).map (processOneMaintenance utc toTime now)) ∧
    (∀ m : Maintenance,
      (processOneMaintenance utc toTime now m).id = m.id ∧
      (processOneMaintenance utc toTime now m).title = m.title ∧
      (processOneMaintenance utc toTime now m).description = m.description ∧
      (processOneMaintenance utc toTime now m).timeslotList =
        (match m.timeslotList with
         | some (s :: rest) => some ((s :: rest).map (fun (slot : Timeslot) =>
             { startDate := utc slot.startDate, endDate := utc slot.endDate }))
         | x => x)) := by
  refine ⟨by simp [processMaintenanceData], ?_, fun m => processOne_frame utc toTime now m⟩
  intro i
  simp [processMaintenanceData, List.getElem?_map]

/-- Claim C2, counterexample: for a first timeslot whose start (10) lies
after its end (5) and a current time of 7, the claim's rule
`now ≥ end → ended` demands status `ended`, but the code's branch order
(`now < start` is tested before `now ≥ end`) yields `scheduled`. -/
theorem C2_counterexample :
    (processMaintenanceData (fun s => s) toTimeNum 7 [invertedSlotItem]).map
      (fun m => m.status) = [some MStatus.scheduled] ∧
    (processMaintenanceData (fun s => s) toTimeNum 7 [invertedSlotItem]).map
      (fun m => m.status) ≠ [some MStatus.ended] := by
  constructor
  · rfl
  · decide

/-- Claim C2, amended: the calculator is a pure function of the item and the
current time, reads only the first (UTC-normalized) timeslot, leaves the
status untouched when there is no timeslot, and otherwise assigns the result
of the source's branch order — `under-maintenance` when `start ≤ now < end`,
otherwise `scheduled` when `now < start`, otherwise `ended`; when
`start ≤ end` this coincides with the partition claimed in the spec. -/
theorem C2_amended (utc : String → String) (toTime : String → Int) (now : Int)
    (m : Maintenance) :
    (∀ s0 rest, m.timeslotList = some (s0 :: rest) →
      (processOneMaintenance utc toTime now m).status =
        some (statusOf (toTime (utc s0.startDate)) (toTime (utc s0.endDate)) now) ∧
      (∀ rest2, (processOneMaintenance utc toTime now
          { m with timeslotList := some (s0 :: rest2) }).status =
        (processOneMaintenance utc toTime now m).status)) ∧
    ((m.timeslotList = none ∨ m.timeslotList = some []) →
      (processOneMaintenance utc toTime now m).status = m.status) ∧
    (∀ s e now2 : Int, s ≤ e →
      (now2 < s → statusOf s e now2 = .scheduled) ∧
      (s ≤ now2 ∧ now2 < e → statusOf s e now2 = .underMaintenance) ∧
      (e ≤ now2 → statusOf s e now2 = .ended)) ∧
    processMaintenanceData utc toTime now [m] = [processOneMaintenance utc toTime now m] := by
  refine ⟨?_, processOne_status_empty utc toTime now m, ?_, rfl⟩
  · intro s0 rest hm
    refine ⟨processOne_status_cons utc toTime now m s0 rest hm, ?_⟩
    intro rest2
    rw [processOne_status_cons utc toTime now m s0 rest hm,
      processOne_status_cons utc toTime now _ s0 rest2 rfl]
  · intro s e now2 hse
    refine ⟨?_, ?_, ?_⟩
    · intro h
      unfold statusOf
      rw [if_neg (by omega), if_pos h]
    · intro h
      unfold statusOf
      rw [if_pos (by omega)]
    · intro h
      unfold statusOf
      rw [if_neg (by omega), if_neg (by omega)]

/-- Witness for the amended C2: concrete evaluations through the theorem. -/
theorem C2_amended_witness :
    (processOneMaintenance (fun s => s) toTimeNum 7 invertedSlotItem).status =
      some (statusOf (toTimeNum "10") (toTimeNum "5") 7) ∧
    (processOneMaintenance (fun s => s) toTimeNum 7
      { invertedSlotItem with timeslotList := none }).status = none ∧
    statusOf 0 10 5 = .underMaintenance := by
  refine ⟨?_, ?_, ?_⟩
  · exact ((C2_amended (fun s => s) toTimeNum 7 invertedSlotItem).1
      { startDate := "10", endDate := "5" } [] rfl).1
  · exact (C2_amended (fun s => s) toTimeNum 7
      { invertedSlotItem with timeslotList := none }).2.1 (Or.inl rfl)
  · exact (((C2_amended (fun s => s) toTimeNum 0 invertedSlotItem).2.2.1
      0 10 5 (by decide)).2.1 ⟨by decide, by decide⟩)

/-- The process-wide config value built from `twoPageEnv`. -/
def twoPageCfg : Config :=
  { baseUrl := "https://status.example"
    defaultPageId := "b"
    pages := twoPageEnv.pages
    currentPageId := "b"
    htmlEndpoint := "https://status.example/status/b"
    apiEndpoint := "https://status.example/api/status-page/heartbeat/b"
    siteMeta := { title := "B", description := "second", icon := "/b.svg" }
    isPlaceholder := false
    isEditThisPage := false
    isShowStarButton := true }

/-- Document with no preload element and no scripts. -/
def emptyDoc : HtmlDoc := { preloadText := [], scripts := [] }

/-- Claim C6, counterexample: with pages `[a, b]` and default page `b`, an
unknown page id returns page `b`'s data (the default), not the first
configured page `a`'s data as the claim states. -/
theorem C6_counterexample :
    getConfig twoPageEnv = Except.ok twoPageCfg ∧
    (getConfigForPage twoPageCfg "zzz").htmlEndpoint = "https://status.example/status/b" ∧
    (getConfigForPage twoPageCfg "zzz").siteMeta.title = "B" ∧
    ("https://status.example/status/b" : String) ≠ "https://status.example/status/a" ∧
    ("B" : String) ≠ "A" := by
  refine ⟨?_, ?_, ?_, by decide, by decide⟩
  · rfl
  · rfl
  · rfl

/-- Claim C6, amended: for a page id matching no configured page,
`getConfigForPage` does not fail and returns the process-wide default
configuration unchanged — the page selected by `defaultPageId` (with
endpoints derived from `defaultPageId`), not the first entry of the pages
sequence; `currentPageId` stays `defaultPageId` rather than the requested
unknown id. -/
theorem C6_amended (apiCfg : Config) (pageId : String) :
    (apiCfg.pages.find? (fun p => p.id == pageId) = none →
      getConfigForPage apiCfg pageId = apiCfg) ∧
    (∀ e : EnvConfig, getConfig e = Except.ok apiCfg →
      apiCfg.currentPageId = e.defaultPageId ∧
      apiCfg.htmlEndpoint = e.baseUrl ++ "/status/" ++ e.defaultPageId ∧
      apiCfg.apiEndpoint = e.baseUrl ++ "/api/status-page/heartbeat/" ++ e.defaultPageId) := by
  constructor
  · intro h
    unfold getConfigForPage
    rw [h]
  · intro e h
    unfold getConfig at h
    split_ifs at h with hg
    cases hp : e.pages with
    | nil => rw [hp] at h; exact absurd h (by simp)
    | cons p0 ps =>
      rw [hp] at h
      obtain hcfg := (Except.ok.injEq .. ▸ h)
      rw [← hcfg]
      exact ⟨rfl, rfl, rfl⟩

/-- Witness for the amended C6: the concrete two-page environment. -/
theorem C6_amended_witness :
    getConfigForPage twoPageCfg "zzz" = twoPageCfg ∧
    twoPageCfg.currentPageId = twoPageEnv.defaultPageId ∧
    twoPageCfg.htmlEndpoint =
      twoPageEnv.baseUrl ++ "/status/" ++ twoPageEnv.defaultPageId := by
  refine ⟨?_, ?_, ?_⟩
  · exact (C6_amended twoPageCfg "zzz").1 (by decide)
  · exact ((C6_amended twoPageCfg "zzz").2 twoPageEnv (by rfl)).1
  · exact ((C6_amended twoPageCfg "zzz").2 twoPageEnv (by rfl)).2.1

/-- Claim C9: for every page id, the config returned by `getConfigForPage`
has `htmlEndpoint` and `apiEndpoint` derived by interpolating its own
`baseUrl` and `currentPageId`, and the process-wide `apiConfig` state passes
through the call unmodified. -/
theorem C9_endpoint_consistency (e : EnvConfig) (cfg : Config) (pageId : String)
    (h : getConfig e = Except.ok cfg) :
    ((getConfigForPage cfg pageId).htmlEndpoint =
      (getConfigForPage cfg pageId).baseUrl ++ "/status/" ++
        (getConfigForPage cfg pageId).currentPageId) ∧
    ((getConfigForPage cfg pageId).apiEndpoint =
      (getConfigForPage cfg pageId).baseUrl ++ "/api/status-page/heartbeat/" ++
        (getConfigForPage cfg pageId).currentPageId) ∧
    (getConfigForPageSt cfg pageId).2 = cfg := by
  have hfields : cfg.currentPageId = e.defaultPageId ∧
      cfg.baseUrl = e.baseUrl ∧
      cfg.htmlEndpoint = e.baseUrl ++ "/status/" ++ e.defaultPageId ∧
      cfg.apiEndpoint = e.baseUrl ++ "/api/status-page/heartbeat/" ++ e.defaultPageId := by
    unfold getConfig at h
    split_ifs at h with hg
    cases hp : e.pages with
    | nil => rw [hp] at h; exact absurd h (by simp)
    | cons p0 ps =>
      rw [hp] at h
      obtain hcfg := (Except.ok.injEq .. ▸ h)
      rw [← hcfg]
      exact ⟨rfl, rfl, rfl, rfl⟩
  unfold getConfigForPage getConfigForPageSt
  cases hfind : cfg.pages.find? (fun p => p.id == pageId) with
  | some page =>
    refine ⟨rfl, rfl, ?_⟩
    unfold getConfigForPage
    rw [hfind]
  | none =>
    refine ⟨?_, ?_, ?_⟩
    · rw [hfields.1, hfields.2.1, hfields.2.2.1]
    · rw [hfields.1, hfields.2.1, hfields.2.2.2]
    · unfold getConfigForPage
      rw [hfind]

/-- Witness for C9: the concrete two-page environment, known and unknown id. -/
theorem C9_endpoint_consistency_witness :
    ((getConfigForPage twoPageCfg "a").htmlEndpoint =
      (getConfigForPage twoPageCfg "a").baseUrl ++ "/status/" ++
        (getConfigForPage twoPageCfg "a").currentPageId) ∧
    ((getConfigForPage twoPageCfg "zzz").htmlEndpoint =
      (getConfigForPage twoPageCfg "zzz").baseUrl ++ "/status/" ++
        (getConfigForPage twoPageCfg "zzz").currentPageId) := by
  constructor
  · exact (C9_endpoint_consistency twoPageEnv twoPageCfg "a" (by rfl)).1
  · exact (C9_endpoint_consistency twoPageEnv twoPageCfg "zzz" (by rfl)).1

/-- Claim C8: `getPreloadData` propagates fetch failures and
payload-not-found failures as typed errors and never returns normally in
either case — a non-2xx response yields an error carrying the status, and an
OK response in which neither locator strategy yields non-empty payload text
yields the payload-not-found error, for every parser. -/
theorem C8_preload_failures (parse : List Char → Except PreloadFailure PreloadData)
    (status : Nat) (doc : HtmlDoc) :
    (¬(200 ≤ status ∧ status < 300) →
      getPreloadData parse (.response status doc) =
        Except.error (.fetchFailed status)) ∧
    ((200 ≤ status ∧ status < 300) → locatePreload doc = none →
      getPreloadData parse (.response status doc) =
        Except.error PreloadFailure.payloadNotFound) := by
  constructor
  · intro h
    have hb : (decide (200 ≤ status) && decide (status < 300)) = false := by
      rcases not_and_or.mp h with h2 | h2 <;> simp [h2]
    simp [getPreloadData, hb]
  · intro h hloc
    have hb : (decide (200 ≤ status) && decide (status < 300)) = true := by
      simp [h.1, h.2]
    simp [getPreloadData, hb, hloc]

/-- Witness for C8: a 404 response and a 200 response with an empty
document. -/
theorem C8_preload_failures_witness :
    getPreloadData (fun _ => Except.error PreloadFailure.parseOther)
      (.response 404 emptyDoc) = Except.error (.fetchFailed 404) ∧
    getPreloadData (fun _ => Except.error PreloadFailure.parseOther)
      (.response 200 emptyDoc) = Except.error PreloadFailure.payloadNotFound := by
  constructor
  · exact (C8_preload_failures _ 404 emptyDoc).1 (by omega)
  · exact (C8_preload_failures _ 200 emptyDoc).2 (by omega) (by rfl)

/-- Case analysis of `getGlobalConfig`: either some validation step failed
and the placeholder is returned, or the happy path was taken. -/
theorem getGlobalConfig_cases (utc : String → String) (toTime : String → Int)
    (now : Int) (pd : Except PreloadFailure PreloadData) :
    getGlobalConfig utc toTime now pd = placeholderGlobalConfig ∨
    ∃ p cfg raw, pd = Except.ok p ∧ p.config = some cfg ∧
      requiredFields.all (fun f => hasField cfg f) = true ∧
      lookupField cfg "theme" = some (JValue.str raw) ∧
      getGlobalConfig utc toTime now pd =
        { config := overrideTheme cfg
            (if raw == "dark" then "dark"
             else if raw == "light" then "light" else "system")
          incident := p.incident.map (fun i =>
            { createdDate := utc i.createdDate
              lastUpdatedDate := utc i.lastUpdatedDate })
          maintenanceList := (getMaintenanceData utc toTime now pd).maintenanceList } := by
  cases pd with
  | error e => exact Or.inl rfl
  | ok p =>
    cases hc : p.config with
    | none => exact Or.inl (by simp [getGlobalConfig, hc])
    | some cfg =>
      by_cases hall : requiredFields.all (fun f => hasField cfg f) = true
      · cases hth : lookupField cfg "theme" with
        | none => exact Or.inl (by simp [getGlobalConfig, hc, hall, hth])
        | some v =>
          cases v with
          | str raw =>
            refine Or.inr ⟨p, cfg, raw, rfl, hc, hall, hth, ?_⟩
            simp [getGlobalConfig, hc, hall, hth]
          | null => exact Or.inl (by simp [getGlobalConfig, hc, hall, hth])
          | bool b => exact Or.inl (by simp [getGlobalConfig, hc, hall, hth])
          | num n => exact Or.inl (by simp [getGlobalConfig, hc, hall, hth])
          | arr l => exact Or.inl (by simp [getGlobalConfig, hc, hall, hth])
          | obj l => exact Or.inl (by simp [getGlobalConfig, hc, hall, hth])
      · have hall2 : requiredFields.all (fun f => hasField cfg f) = false :=
          Bool.not_eq_true _ ▸ hall
        exact Or.inl (by simp [getGlobalConfig, hc, hall2])

/-- The required-field check covers `theme`. -/
theorem hasField_theme_of_all {cfg : List (String × JValue)}
    (h : requiredFields.all (fun f => hasField cfg f) = true) :
    hasField cfg "theme" = true := by
  have := List.all_eq_true.mp h "theme" (by simp [requiredFields])
  simpa using this

/-- Claim C4: the theme of every config returned by `getGlobalConfig` is one
of exactly `light`, `dark`, `system` (including on the degraded
placeholder), and whenever the raw upstream theme string is read it is
mapped `dark ↦ dark`, `light ↦ light`, anything else `↦ system`. -/
theorem C4_theme_normalization (utc : String → String) (toTime : String → Int)
    (now : Int) (pd : Except PreloadFailure PreloadData) :
    (∃ t : String, lookupField (getGlobalConfig utc toTime now pd).config "theme" =
        some (JValue.str t) ∧ (t = "light" ∨ t = "dark" ∨ t = "system")) ∧
    (∀ p cfg raw, pd = Except.ok p → p.config = some cfg →
      requiredFields.all (fun f => hasField cfg f) = true →
      lookupField cfg "theme" = some (JValue.str raw) →
      lookupField (getGlobalConfig utc toTime now pd).config "theme" =
        some (JValue.str (if raw == "dark" then "dark"
          else if raw == "light" then "light" else "system"))) := by
  constructor
  · rcases getGlobalConfig_cases utc toTime now pd with h | ⟨p, cfg, raw, hpd, hc, hall, hth, h⟩
    · exact ⟨"system", by rw [h]; rfl, Or.inr (Or.inr rfl)⟩
    · rw [h]
      refine ⟨if raw == "dark" then "dark" else if raw == "light" then "light" else "system",
        lookupField_overrideTheme cfg _ (hasField_theme_of_all hall), ?_⟩
      by_cases h1 : raw == "dark"
      · simp [h1]
      · by_cases h2 : raw == "light"
        · simp [h1, h2]
        · simp [h1, h2]
  · intro p cfg raw hpd hc hall hth
    subst hpd
    have h : getGlobalConfig utc toTime now (Except.ok p) =
        { config := overrideTheme cfg
            (if raw == "dark" then "dark"
             else if raw == "light" then "light" else "system")
          incident := p.incident.map (fun i =>
            { createdDate := utc i.createdDate
              lastUpdatedDate := utc i.lastUpdatedDate })
          maintenanceList :=
            (getMaintenanceData utc toTime now (Except.ok p)).maintenanceList } := by
      simp [getGlobalConfig, hc, hall, hth]
    rw [h]
    exact lookupField_overrideTheme cfg _ (hasField_theme_of_all hall)

/-- Witness for C4: an unrecognized raw theme string maps to `system`. -/
theorem C4_theme_normalization_witness :
    lookupField (getGlobalConfig (fun s => s) toTimeNum 0
      (Except.ok purplePayload)).config "theme" =
      some (JValue.str (if ("purple" : String) == "dark" then "dark"
        else if ("purple" : String) == "light" then "light" else "system")) :=
  (C4_theme_normalization (fun s => s) toTimeNum 0 (Except.ok purplePayload)).2
    purplePayload purpleConfigFields "purple" rfl rfl (by decide) rfl

/-- Claim C5: when the payload's `maintenanceList` is present but not a
sequence, `getMaintenanceData` catches the `ApiDataError` locally and returns
`success: false` with an empty list, and `getGlobalConfig` on the same
payload still returns a config whose `maintenanceList` is empty — neither
raises past its boundary (both are total functions of the outcome). -/
theorem C5_maintenance_degradation (utc : String → String) (toTime : String → Int)
    (now : Int) (p : PreloadData) (v : JValue)
    (hm : p.maintenanceList = MaintField.nonSeq v) :
    (getMaintenanceData utc toTime now (Except.ok p)).success = false ∧
    (getMaintenanceData utc toTime now (Except.ok p)).maintenanceList = [] ∧
    (getGlobalConfig utc toTime now (Except.ok p)).maintenanceList = [] := by
  have hmaint : getMaintenanceData utc toTime now (Except.ok p) =
      { success := false, maintenanceList := []
        error := some "Maintenance list data must be an array" } := by
    simp [getMaintenanceData, hm]
  refine ⟨by rw [hmaint], by rw [hmaint], ?_⟩
  rcases getGlobalConfig_cases utc toTime now (Except.ok p) with h |
    ⟨p2, cfg, raw, hpd, hc, hall, hth, h⟩
  · rw [h]
    rfl
  · rw [h]
    obtain rfl : p2 = p := (Except.ok.injEq .. ▸ hpd).symm
    rw [hmaint]

/-- Witness for C5: a payload whose `maintenanceList` is the number 5. -/
theorem C5_maintenance_degradation_witness :
    (getMaintenanceData (fun s => s) toTimeNum 0
      (Except.ok nonSeqMaintPayload)).success = false ∧
    (getMaintenanceData (fun s => s) toTimeNum 0
      (Except.ok nonSeqMaintPayload)).maintenanceList = [] ∧
    (getGlobalConfig (fun s => s) toTimeNum 0
      (Except.ok nonSeqMaintPayload)).maintenanceList = [] :=
  C5_maintenance_degradation (fun s => s) toTimeNum 0 nonSeqMaintPayload
    (JValue.num 5) rfl

/-- Claim C7, counterexample: on a payload with no config object the call
degrades to the placeholder — but the placeholder does not have all boolean
feature flags off: `published` and `showTags` are set to `true`. -/
theorem C7_counterexample :
    getGlobalConfig (fun s => s) toTimeNum 0 (Except.ok configlessPayload) =
      placeholderGlobalConfig ∧
    lookupField placeholderGlobalConfig.config "published" = some (JValue.bool true) ∧
    lookupField placeholderGlobalConfig.config "showTags" = some (JValue.bool true) ∧
    some (JValue.bool true) ≠ some (JValue.bool false) := by
  refine ⟨rfl, rfl, rfl, ?_⟩
  intro h
  obtain h2 := Option.some.injEq .. ▸ h
  obtain h3 := JValue.bool.injEq .. ▸ h2
  exact Bool.noConfusion h3

/-- Claim C7, amended: whenever validation of the core config fails inside
`getGlobalConfig` (config absent, a required field missing, or theme not a
string), the error is caught at the top level and the minimal placeholder is
returned — empty strings for the string fields, icon `/icon.svg`, theme
`system`, `showPoweredBy` and `showCertificateExpiry` off but `published`
and `showTags` on, `googleAnalyticsId` null, and an empty `maintenanceList`
— so the call never raises on a malformed payload. -/
theorem C7_placeholder_on_invalid (utc : String → String) (toTime : String → Int)
    (now : Int) (p : PreloadData)
    (h : p.config = none ∨
      (∃ cfg, p.config = some cfg ∧
        requiredFields.all (fun f => hasField cfg f) = false) ∨
      (∃ cfg, p.config = some cfg ∧
        ∀ raw, lookupField cfg "theme" ≠ some (JValue.str raw))) :
    getGlobalConfig utc toTime now (Except.ok p) = placeholderGlobalConfig ∧
    lookupField placeholderGlobalConfig.config "slug" = some (JValue.str "") ∧
    lookupField placeholderGlobalConfig.config "title" = some (JValue.str "") ∧
    lookupField placeholderGlobalConfig.config "description" = some (JValue.str "") ∧
    lookupField placeholderGlobalConfig.config "icon" = some (JValue.str "/icon.svg") ∧
    lookupField placeholderGlobalConfig.config "theme" = some (JValue.str "system") ∧
    lookupField placeholderGlobalConfig.config "showPoweredBy" = some (JValue.bool false) ∧
    lookupField placeholderGlobalConfig.config "showCertificateExpiry" =
      some (JValue.bool false) ∧
    lookupField placeholderGlobalConfig.config "published" = some (JValue.bool true) ∧
    lookupField placeholderGlobalConfig.config "showTags" = some (JValue.bool true) ∧
    lookupField placeholderGlobalConfig.config "googleAnalyticsId" = some JValue.null ∧
    placeholderGlobalConfig.maintenanceList = [] := by
  refine ⟨?_, rfl, rfl, rfl, rfl, rfl, rfl, rfl, rfl, rfl, rfl, rfl⟩
  rcases getGlobalConfig_cases utc toTime now (Except.ok p) with h2 |
    ⟨p2, cfg, raw, hpd, hc, hall, hth, h2⟩
  · exact h2
  · exfalso
    obtain rfl : p2 = p := (Except.ok.injEq .. ▸ hpd).symm
    rcases h with h | ⟨cfg2, hc2, hall2⟩ | ⟨cfg2, hc2, hth2⟩
    · rw [h] at hc
      exact Option.noConfusion hc
    · rw [hc2] at hc
      obtain rfl : cfg2 = cfg := Option.some.injEq .. ▸ hc
      rw [hall] at hall2
      exact Bool.noConfusion hall2
    · rw [hc2] at hc
      obtain rfl : cfg2 = cfg := Option.some.injEq .. ▸ hc
      exact hth2 raw hth

/-- Witness for the amended C7: the payload with no config object. -/
theorem C7_placeholder_on_invalid_witness :
    getGlobalConfig (fun s => s) toTimeNum 0 (Except.ok configlessPayload) =
      placeholderGlobalConfig ∧
    placeholderGlobalConfig.maintenanceList = [] := by
  have h := C7_placeholder_on_invalid (fun s => s) toTimeNum 0 configlessPayload
    (Or.inl rfl)
  exact ⟨h.1, h.2.2.2.2.2.2.2.2.2.2.2⟩

/-- A successful anchored match at the head decides the search. -/
theorem searchPreload_of_matchFrom {s m : List Char} (hne : s ≠ [])
    (h : matchFrom s = some m) : searchPreload s = some m := by
  cases s with
  | nil => exact absurd rfl hne
  | cons c cs =>
    unfold searchPreload
    rw [h]

/-- Claim C1, counterexample: with the preload element absent and a legacy
script whose assignment is followed on the same line by further text
containing a closing brace and semicolon, the locator (a single greedy
regex) captures up to the last brace-semicolon pair, not the balanced
right-hand-side object literal that the claim describes. -/
theorem C1_counterexample :
    locatePreload preloadCexDoc =
      some (("\x7b\"a\":1\x7d;const x = \x7bb:2\x7d").toList) ∧
    specBalancedCapture preloadCexScript = some (("\x7b\"a\":1\x7d").toList) ∧
    locatePreload preloadCexDoc ≠ specBalancedCapture preloadCexScript := by
  refine ⟨by decide, by decide, by decide⟩

/-- Claim C1, amended: the legacy fallback extracts with the greedy regex
`window\.preloadData\s*=\s*({.*});` — the capture runs from the first brace
after the assignment to the *last* brace-semicolon pair on the same line
(not to the balanced closing brace); on the spec's example script, where
nothing follows the payload, this still yields exactly
the payload object text. -/
theorem C1_greedy_locator :
    (∀ w1 w2 body : List Char, ∀ k : Nat,
      (∀ c ∈ w1, isJsWs c = true) → (∀ c ∈ w2, isJsWs c = true) →
      (∀ c ∈ body, isLineTerm c = false) → lastBraceSemi body = some k →
      searchPreload (preloadMarker ++ w1 ++ '=' :: w2 ++ lbraceC :: body) =
        some (lbraceC :: (body.take k ++ [rbraceC]))) ∧
    (∀ body : List Char, ∀ k : Nat, lastBraceSemi body = some k →
      braceSemiAt body k = true ∧ ∀ j, k < j → braceSemiAt body j = false) ∧
    locatePreload preloadExampleDoc =
      some (("\x7b\"config\":\x7b\"theme\":\"dark\"\x7d\x7d").toList) := by
  refine ⟨?_, ?_, by decide⟩
  · intro w1 w2 body k hw1 hw2 hb hk
    have hmf : matchFrom (preloadMarker ++ w1 ++ '=' :: w2 ++ lbraceC :: body) =
        some (lbraceC :: (body.take k ++ [rbraceC])) := by
      have harg : preloadMarker ++ w1 ++ '=' :: w2 ++ lbraceC :: body =
          preloadMarker ++ (w1 ++ ('=' :: (w2 ++ (lbraceC :: body)))) := by
        simp
      have hhead1 : ∀ d : Char,
          (('=' :: (w2 ++ lbraceC :: body)) : List Char).head? = some d →
            isJsWs d = false := by
        intro d hd
        obtain rfl : '=' = d := Option.some.injEq .. ▸ hd
        decide
      have hhead2 : ∀ d : Char,
          ((lbraceC :: body) : List Char).head? = some d → isJsWs d = false := by
        intro d hd
        obtain rfl : lbraceC = d := Option.some.injEq .. ▸ hd
        decide
      have htw : body.takeWhile (fun d => !isLineTerm d) = body := by
        apply takeWhile_all
        intro c hc
        simp [hb c hc]
      rw [harg]
      unfold matchFrom
      simp only [stripLit_self, dropWhile_all_append isJsWs w1 hw1 _ hhead1,
        dropWhile_all_append isJsWs w2 hw2 _ hhead2, htw, hk, eq_self_iff_true,
        ite_true, if_true]
    exact searchPreload_of_matchFrom (by simp [preloadMarker]) hmf
  · intro body k hk
    have h := lbsDown_spec body body.length k hk
    refine ⟨h.2.1, fun j hj => ?_⟩
    by_cases hjl : j < body.length
    · exact h.2.2 j hj hjl
    · exact braceSemiAt_ge_len (by omega)

/-- Witness for the amended C1: the spec's example payload, whose last
brace-semicolon pair sits at index 25 of the 27-character body. -/
theorem C1_greedy_locator_witness :
    searchPreload (preloadMarker ++ [' '] ++ '=' :: [' '] ++ lbraceC ::
      ("\"config\":\x7b\"theme\":\"dark\"\x7d\x7d;").toList) =
      some (lbraceC :: ((("\"config\":\x7b\"theme\":\"dark\"\x7d\x7d;").toList).take 25 ++
        [rbraceC])) :=
  C1_greedy_locator.1 [' '] [' '] (("\"config\":\x7b\"theme\":\"dark\"\x7d\x7d;").toList)
    25 (by decide) (by decide) (by decide) (by decide)
